import Mathlib

/-!
# Verification of the spendah core services

Shallow embedding of the core logic of the `spendah` personal-finance
backend, translated from the Python sources:

* `app/services/recurring_service.py`   (`calculate_next_expected`)
* `app/services/tokenization_service.py` (`TokenizationService`)
* `app/services/deduplication_service.py` (`generate_transaction_hash`)

Modelling conventions:

* Python `datetime.date` is modelled as a proleptic Gregorian calendar
  date with an unbounded year (the library's year range 1..9999 is
  idealized away); `d + timedelta(days=n)` is modelled by iterating the
  calendar successor / predecessor function `n` times, which agrees with
  the library's linear-day-count arithmetic.
* Python strings are modelled as `List Char`; `str.strip`, `str.upper`,
  `str.lower`, `str.replace` and the concrete regular expressions used by
  the service are implemented character by character with Python's
  (ASCII) semantics.
* The SQLAlchemy-backed token store and its in-memory caches are
  modelled by explicit state passing over a `TokState` record; the
  database commit machinery is dropped, the stored rows are kept.
-/

namespace Spendah

/-! ## Calendar (model of `datetime.date`) -/

/-- A proleptic Gregorian calendar date (year unbounded). -/
@[ext]
structure Date where
  year : Int
  month : Nat
  day : Nat
deriving DecidableEq, Repr

/-- Gregorian leap-year rule (as used by `datetime.date`). -/
def isLeap (y : Int) : Bool :=
  y % 4 == 0 && (y % 100 != 0 || y % 400 == 0)

/-- Number of days in a month (0 for an out-of-range month). -/
def daysInMonth (y : Int) (m : Nat) : Nat :=
  if m = 2 then (if isLeap y then 29 else 28)
  else if m = 4 ∨ m = 6 ∨ m = 9 ∨ m = 11 then 30
  else if 1 ≤ m ∧ m ≤ 12 then 31
  else 0

/-- Validity of a `Date` (what `datetime.date(y, m, d)` accepts,
with the year range idealized away). -/
def validDate (d : Date) : Bool :=
  decide (1 ≤ d.month ∧ d.month ≤ 12 ∧ 1 ≤ d.day ∧ d.day ≤ daysInMonth d.year d.month)

/-- The `datetime.date` constructor with the year range idealized away:
`some` on a shape-valid (year, month, day) triple, `none` where Python
raises `ValueError` for a month/day reason. The year-range `ValueError`
is kept by `pyDate?` below. -/
def mkDate? (y : Int) (m day : Nat) : Option Date :=
  if validDate ⟨y, m, day⟩ then some ⟨y, m, day⟩ else none

/-- Calendar successor (the next day). -/
def nextDay (d : Date) : Date :=
  if d.day < daysInMonth d.year d.month then ⟨d.year, d.month, d.day + 1⟩
  else if d.month < 12 then ⟨d.year, d.month + 1, 1⟩
  else ⟨d.year + 1, 1, 1⟩

/-- Calendar predecessor (the previous day). -/
def prevDay (d : Date) : Date :=
  if 1 < d.day then ⟨d.year, d.month, d.day - 1⟩
  else if 1 < d.month then ⟨d.year, d.month - 1, daysInMonth d.year (d.month - 1)⟩
  else ⟨d.year - 1, 12, 31⟩

/-- `d + timedelta(days := n)` for `n ≥ 0`. -/
def addDays (d : Date) (n : Nat) : Date :=
  nextDay^[n] d

/-- `d - timedelta(days := n)` for `n ≥ 0`. -/
def subDays (d : Date) (n : Nat) : Date :=
  prevDay^[n] d

/-- `d + timedelta(days := k)` for an arbitrary signed day count. -/
def addDaysInt (d : Date) (k : Int) : Date :=
  if 0 ≤ k then addDays d k.toNat else subDays d (-k).toNat

/-- Strict calendar order on dates (lexicographic on year, month, day;
on valid dates this is the order of the linear day count). -/
def dateLt (a b : Date) : Prop :=
  a.year < b.year ∨
    (a.year = b.year ∧ (a.month < b.month ∨ (a.month = b.month ∧ a.day < b.day)))

instance (a b : Date) : Decidable (dateLt a b) := by
  unfold dateLt
  infer_instance

/-! ## Recurrence date projection (`recurring_service.calculate_next_expected`) -/

/-- The argument of `calculate_next_expected`.  The five named cases are
the members of the `Frequency` enum of `app/models/recurring.py`; `other`
stands for any value that is none of the five members (every equality
test in the if/elif chain fails, so the `else` branch runs). -/
inductive FreqArg where
  | weekly
  | biweekly
  | monthly
  | quarterly
  | yearly
  | other
deriving DecidableEq, Repr

/-- `calculate_next_expected` from `app/services/recurring_service.py`.
`none` models an uncaught `ValueError` from the `date` constructor. -/
def calculateNextExpected (lastDate : Date) (frequency : FreqArg) : Option Date :=
  match frequency with
  | .weekly => some (addDays lastDate 7)
  | .biweekly => some (addDays lastDate 14)
  | .monthly =>
      if lastDate.month == 12 then
        mkDate? (lastDate.year + 1) 1 lastDate.day
      else
        match mkDate? lastDate.year (lastDate.month + 1) lastDate.day with
        | some d => some d
        | none => mkDate? lastDate.year (lastDate.month + 1) 28
  | .quarterly =>
      let newMonth0 := lastDate.month + 3
      let newMonth := if newMonth0 > 12 then newMonth0 - 12 else newMonth0
      let newYear := if newMonth0 > 12 then lastDate.year + 1 else lastDate.year
      (match mkDate? newYear newMonth lastDate.day with
        | some d => some d
        | none => mkDate? newYear newMonth 28)
  | .yearly =>
      match mkDate? (lastDate.year + 1) lastDate.month lastDate.day with
      | some d => some d
      | none => mkDate? (lastDate.year + 1) lastDate.month 28
  | .other => some (addDays lastDate 30)

/-! ### The same projection over `datetime.date`'s real year range

`datetime.date` only accepts years `1..9999`; beyond `validDate`'s shape
checks, the constructor raises `ValueError` outside that range, and
`date + timedelta` raises `OverflowError` past `date.max` (9999-12-31).
The bounded embedding below keeps those library errors as `none`. -/

/-- What `datetime.date` actually accepts: a valid shape and a year in
the library range `1..9999`. -/
def pyValidDate (d : Date) : Bool :=
  validDate d && decide (1 ≤ d.year) && decide (d.year ≤ 9999)

/-- The `datetime.date` constructor with its year-range check: `none`
wherever Python raises `ValueError`. -/
def pyDate? (y : Int) (m day : Nat) : Option Date :=
  if 1 ≤ y ∧ y ≤ 9999 then mkDate? y m day else none

/-- `d + timedelta(days := n)` for `n ≥ 0`: `none` where Python raises
`OverflowError` (the result would pass `date.max`; passing `date.min` is
impossible when adding a nonnegative count). -/
def pyAddDays (d : Date) (n : Nat) : Option Date :=
  if (addDays d n).year ≤ 9999 then some (addDays d n) else none

/-- `calculate_next_expected` with the `datetime` year bound kept:
`none` models any uncaught `ValueError`/`OverflowError`. -/
def calculateNextExpectedPy (lastDate : Date) (frequency : FreqArg) : Option Date :=
  match frequency with
  | .weekly => pyAddDays lastDate 7
  | .biweekly => pyAddDays lastDate 14
  | .monthly =>
      if lastDate.month == 12 then
        pyDate? (lastDate.year + 1) 1 lastDate.day
      else
        match pyDate? lastDate.year (lastDate.month + 1) lastDate.day with
        | some d => some d
        | none => pyDate? lastDate.year (lastDate.month + 1) 28
  | .quarterly =>
      let newMonth0 := lastDate.month + 3
      let newMonth := if newMonth0 > 12 then newMonth0 - 12 else newMonth0
      let newYear := if newMonth0 > 12 then lastDate.year + 1 else lastDate.year
      (match pyDate? newYear newMonth lastDate.day with
        | some d => some d
        | none => pyDate? newYear newMonth 28)
  | .yearly =>
      match pyDate? (lastDate.year + 1) lastDate.month lastDate.day with
      | some d => some d
      | none => pyDate? (lastDate.year + 1) lastDate.month 28
  | .other => pyAddDays lastDate 30

/-! ## Python string primitives (ASCII fragment, on `List Char`) -/

/-- Whitespace recognised by `str.strip()` (ASCII part). -/
def isSpaceCh (c : Char) : Bool :=
  c == ' ' || c == '\t' || c == '\n' || c == '\r' || c == '\x0b' || c == '\x0c'

/-- ASCII decimal digit test (`\d` over ASCII). -/
def isDigitCh (c : Char) : Bool :=
  decide ('0' ≤ c) && decide (c ≤ '9')

/-- ASCII uppercasing of one character (`str.upper`). -/
def toUpperCh (c : Char) : Char :=
  if 'a' ≤ c ∧ c ≤ 'z' then Char.ofNat (c.toNat - 32) else c

/-- ASCII lowercasing of one character (`str.lower`). -/
def toLowerCh (c : Char) : Char :=
  if 'A' ≤ c ∧ c ≤ 'Z' then Char.ofNat (c.toNat + 32) else c

/-- `str.upper()`. -/
def upperL (s : List Char) : List Char := s.map toUpperCh

/-- `str.lower()`. -/
def lowerL (s : List Char) : List Char := s.map toLowerCh

/-- `str.strip()`: drop leading and trailing whitespace. -/
def stripL (s : List Char) : List Char :=
  ((s.dropWhile isSpaceCh).reverse.dropWhile isSpaceCh).reverse

/-- `TokenizationService._normalize`: `value.strip().upper()`. -/
def normalizeL (value : List Char) : List Char := upperL (stripL value)

/-- The character for decimal digit `n` (`n < 10`). -/
def digitChar (n : Nat) : Char := Char.ofNat (48 + n)

/-- Numeric value of a decimal digit character. -/
def digitVal (c : Char) : Nat := c.toNat - 48

/-- Decimal digit expansion, most significant first; structural recursion
on a fuel bound so that the kernel can evaluate it (`fuel > n` suffices,
since `n / 10 < n` at every step). -/
def natDigitsGo : Nat → Nat → List Char → List Char
  | 0, _, acc => acc
  | fuel + 1, n, acc =>
      if n < 10 then digitChar n :: acc
      else natDigitsGo fuel (n / 10) (digitChar (n % 10) :: acc)

/-- Decimal digits of `n` (`str(n)` for a nonnegative int). -/
def natDigits (n : Nat) : List Char := natDigitsGo (n + 1) n []

/-- Python `f"{n:0wd}"`: zero-pad the decimal digits of `n` to width `w`
(wider numbers keep all their digits). -/
def padZero (w n : Nat) : List Char :=
  List.replicate (w - (natDigits n).length) '0' ++ natDigits n

/-- Numeric value of a digit string (most significant first). -/
def fromDigits (s : List Char) : Nat :=
  s.foldl (fun acc c => acc * 10 + digitVal c) 0

/-! ## Token store state (`TokenizationService` + `token_map.py`) -/

/-- The `TokenType` enum of `app/models/token_map.py`. -/
inductive TokenType where
  | merchant
  | account
  | person
deriving DecidableEq, Repr

/-- One persisted `token_maps` row (`TokenMap`); the `metadata` and
`created_at` columns play no part in the claims and are not modelled. -/
structure TokenRec where
  tokenType : TokenType
  originalValue : List Char
  normalizedValue : List Char
  token : List Char
deriving DecidableEq, Repr

/-- The persistent store plus the in-memory state of a
`TokenizationService` instance: `records` is the `token_maps` table in
insertion order, `cache` and `reverseCache` are `self._cache` /
`self._reverse_cache` (newest entry first, first match wins, matching
dict overwrite semantics), `memShift` is `self._date_shift` and
`dbShift` the singleton `date_shifts` row. -/
@[ext]
structure TokState where
  records : List TokenRec
  cache : List ((TokenType × List Char) × List Char)
  reverseCache : List (List Char × List Char)
  memShift : Option Int
  dbShift : Option Int
deriving DecidableEq, Repr

/-- Association-list lookup (Python dict read). -/
def alookup {α β : Type} [DecidableEq α] : List (α × β) → α → Option β
  | [], _ => none
  | (k, v) :: rest, key => if key = k then some v else alookup rest key

/-- First `token_maps` row with the given type and normalized value
(the `filter(...).first()` query). -/
def findRec : List TokenRec → TokenType → List Char → Option TokenRec
  | [], _, _ => none
  | r :: rest, t, nv =>
      if r.tokenType = t ∧ r.normalizedValue = nv then some r else findRec rest t nv

/-- `count()` of rows of one token type. -/
def countType (records : List TokenRec) (t : TokenType) : Nat :=
  (records.filter (fun r => decide (r.tokenType = t))).length

/-- The prefix of merchant tokens. -/
def mercPre : List Char := ['M', 'E', 'R', 'C', 'H', 'A', 'N', 'T', '_']

/-- The prefix of account tokens. -/
def accPre : List Char := ['A', 'C', 'C', 'O', 'U', 'N', 'T', '_']

/-- The prefix of person tokens. -/
def persPre : List Char := ['P', 'E', 'R', 'S', 'O', 'N', '_']

/-- The token string for sequence number `n` of a type
(`f"MERCHANT_{n:04d}"`, `f"ACCOUNT_{n:03d}"`, `f"PERSON_{n:03d}"`). -/
def tokenFor (t : TokenType) (n : Nat) : List Char :=
  match t with
  | .merchant => mercPre ++ padZero 4 n
  | .account => accPre ++ padZero 3 n
  | .person => persPre ++ padZero 3 n

/-- Common body of `tokenize_merchant` / `tokenize_account` /
`_tokenize_person`: check the cache, then the table, else create the
next token of the type and update table and caches. -/
def tokenizeValue (s : TokState) (t : TokenType) (value : List Char) :
    List Char × TokState :=
  let normalized := normalizeL value
  match alookup s.cache (t, normalized) with
  | some tok => (tok, s)
  | none =>
      match findRec s.records t normalized with
      | some existing =>
          (existing.token,
            { s with
              cache := ((t, normalized), existing.token) :: s.cache,
              reverseCache := (existing.token, existing.originalValue) :: s.reverseCache })
      | none =>
          let tokenNum := countType s.records t + 1
          let token := tokenFor t tokenNum
          let newRec : TokenRec := ⟨t, value, normalized, token⟩
          (token,
            { s with
              records := s.records ++ [newRec],
              cache := ((t, normalized), token) :: s.cache,
              reverseCache := (token, value) :: s.reverseCache })

/-- `TokenizationService.tokenize_merchant` (the optional category /
subcategory metadata is not modelled). -/
def tokenizeMerchant (s : TokState) (merchant : List Char) : List Char × TokState :=
  tokenizeValue s .merchant merchant

/-- `TokenizationService.tokenize_account` (metadata not modelled). -/
def tokenizeAccount (s : TokState) (accountName : List Char) : List Char × TokState :=
  tokenizeValue s .account accountName

/-- `TokenizationService._tokenize_person`. -/
def tokenizePerson (s : TokState) (personName : List Char) : List Char × TokState :=
  tokenizeValue s .person personName

/-- `TokenizationService._get_date_shift`; `rnd` stands for the value
`random.randint(500, 1500)` would return if a fresh shift had to be
generated and persisted. -/
def getDateShift (s : TokState) (rnd : Int) : Int × TokState :=
  match s.memShift with
  | some v => (v, s)
  | none =>
      match s.dbShift with
      | some v => (v, { s with memShift := some v })
      | none => (rnd, { s with memShift := some rnd, dbShift := some rnd })

/-- `TokenizationService.shift_date`. -/
def shiftDate (s : TokState) (rnd : Int) (d : Date) : Date × TokState :=
  let p := getDateShift s rnd
  (addDaysInt d p.1, p.2)

/-- `TokenizationService.unshift_date`. -/
def unshiftDate (s : TokState) (rnd : Int) (d : Date) : Date × TokState :=
  let p := getDateShift s rnd
  (addDaysInt d (-p.1), p.2)

/-- A fixed installation: the singleton `date_shifts` row holds `v`, and
the in-memory copy, if initialised, agrees with it. -/
def FixedInstall (s : TokState) (v : Int) : Prop :=
  s.dbShift = some v ∧ (s.memShift = none ∨ s.memShift = some v)

/-! ## Well-formedness of the token store -/

/-- Keys `(token_type, normalized_value)` are pairwise distinct in the table. -/
def keysUnique : List TokenRec → Bool
  | [] => true
  | r :: rest =>
      rest.all (fun r2 =>
        !(decide (r2.tokenType = r.tokenType ∧ r2.normalizedValue = r.normalizedValue))) &&
      keysUnique rest

/-- The rows of type `t` carry, in insertion order, the tokens numbered
`1, 2, 3, ...` of that type. -/
def wfNumbering (s : TokState) (t : TokenType) : Bool :=
  decide (((s.records.filter (fun r => decide (r.tokenType = t))).map (fun r => r.token)) =
    (List.range (countType s.records t)).map (fun i => tokenFor t (i + 1)))

/-- Every cache entry restates a row of the table. -/
def wfCache (s : TokState) : Bool :=
  s.cache.all (fun kv =>
    s.records.any (fun r =>
      decide (r.tokenType = kv.1.1 ∧ r.normalizedValue = kv.1.2 ∧ r.token = kv.2)))

/-- Well-formed token store: numbering per type, unique keys, cache
consistent with the table.  Holds for the empty store and is preserved
by every tokenize operation. -/
def wfState (s : TokState) : Bool :=
  wfNumbering s .merchant && wfNumbering s .account && wfNumbering s .person &&
    keysUnique s.records && wfCache s

/-- A `TokenizationService` over an empty database. -/
def emptyState : TokState := ⟨[], [], [], none, none⟩

/-- Fold a list of merchant names through `tokenize_merchant`. -/
def runMerchants (names : List (List Char)) (s : TokState) : TokState :=
  names.foldl (fun st nm => (tokenizeMerchant st nm).2) s

/-- The merchant name used at step `k` of the long counterexample run:
`k` repetitions of `X` (distinct names have distinct lengths). -/
def rep (k : Nat) : List Char := List.replicate k 'X'

/-- The state reached from the empty store after tokenizing
`rep 1, ..., rep k`. -/
def seqState (k : Nat) : TokState :=
  ⟨(List.range k).map (fun i => ⟨.merchant, rep (i + 1), rep (i + 1), tokenFor .merchant (i + 1)⟩),
    ((List.range k).map (fun i => ((TokenType.merchant, rep (i + 1)), tokenFor .merchant (i + 1)))).reverse,
    ((List.range k).map (fun i => (tokenFor .merchant (i + 1), rep (i + 1)))).reverse,
    none, none⟩

/-- The advertised merchant token shape: `MERCHANT_` followed by exactly
four decimal digits. -/
def isMerchTok4 (tk : List Char) : Bool :=
  decide (tk.take 9 = mercPre) && decide ((tk.drop 9).length = 4) && (tk.drop 9).all isDigitCh

/-- The rows of type `t` carry, in insertion order, the tokens numbered
`1, 2, 3, ...` of that type (the proposition behind `wfNumbering`). -/
def numberingOk (records : List TokenRec) (t : TokenType) : Prop :=
  (records.filter (fun r => decide (r.tokenType = t))).map (fun r => r.token) =
    (List.range (countType records t)).map (fun i => tokenFor t (i + 1))

/-! ## SHA-256 (model of `hashlib.sha256(...).hexdigest()`) -/

/-- Truncation to a 32-bit word. -/
def w32 (n : Nat) : Nat := n % 4294967296

/-- Right rotation of a 32-bit word by `k` places. -/
def rotr (k x : Nat) : Nat := x / 2 ^ k + x % 2 ^ k * 2 ^ (32 - k)

/-- Logical right shift. -/
def shr (k x : Nat) : Nat := x / 2 ^ k

/-- Bitwise complement of a 32-bit word. -/
def bnot32 (x : Nat) : Nat := 4294967295 - x % 4294967296

/-- SHA-256 `Ch(e, f, g)`. -/
def shaCh (e f g : Nat) : Nat := Nat.xor (Nat.land e f) (Nat.land (bnot32 e) g)

/-- SHA-256 `Maj(a, b, c)`. -/
def shaMaj (a b c : Nat) : Nat :=
  Nat.xor (Nat.xor (Nat.land a b) (Nat.land a c)) (Nat.land b c)

/-- SHA-256 `Σ0`. -/
def bigSigma0 (x : Nat) : Nat := Nat.xor (Nat.xor (rotr 2 x) (rotr 13 x)) (rotr 22 x)

/-- SHA-256 `Σ1`. -/
def bigSigma1 (x : Nat) : Nat := Nat.xor (Nat.xor (rotr 6 x) (rotr 11 x)) (rotr 25 x)

/-- SHA-256 `σ0`. -/
def smallSigma0 (x : Nat) : Nat := Nat.xor (Nat.xor (rotr 7 x) (rotr 18 x)) (shr 3 x)

/-- SHA-256 `σ1`. -/
def smallSigma1 (x : Nat) : Nat := Nat.xor (Nat.xor (rotr 17 x) (rotr 19 x)) (shr 10 x)

/-- The eight working variables / hash state. -/
structure Hash8 where
  a : Nat
  b : Nat
  c : Nat
  d : Nat
  e : Nat
  f : Nat
  g : Nat
  h : Nat
deriving DecidableEq, Repr

/-- Initial SHA-256 hash value. -/
def initH : Hash8 :=
  ⟨1779033703, 3144134277, 1013904242, 2773480762,
    1359893119, 2600822924, 528734635, 1541459225⟩

/-- The 64 SHA-256 round constants. -/
def kConst : List Nat :=
  [1116352408, 1899447441, 3049323471, 3921009573, 961987163, 1508970993,
   2453635748, 2870763221, 3624381080, 310598401, 607225278, 1426881987,
   1925078388, 2162078206, 2614888103, 3248222580, 3835390401, 4022224774,
   264347078, 604807628, 770255983, 1249150122, 1555081692, 1996064986,
   2554220882, 2821834349, 2952996808, 3210313671, 3336571891, 3584528711,
   113926993, 338241895, 666307205, 773529912, 1294757372, 1396182291,
   1695183700, 1986661051, 2177026350, 2456956037, 2730485921, 2820302411,
   3259730800, 3345764771, 3516065817, 3600352804, 4094571909, 275423344,
   430227734, 506948616, 659060556, 883997877, 958139571, 1322822218,
   1537002063, 1747873779, 1955562222, 2024104815, 2227730452, 2361852424,
   2428436474, 2756734187, 3204031479, 3329325298]

/-- Extend the 16 message-schedule words by `n` more. -/
def extendW : Nat → List Nat → List Nat
  | 0, ws => ws
  | n + 1, ws =>
      extendW n (ws ++ [w32 (smallSigma1 (ws.getD (ws.length - 2) 0) +
        ws.getD (ws.length - 7) 0 + smallSigma0 (ws.getD (ws.length - 15) 0) +
        ws.getD (ws.length - 16) 0)])

/-- The 64 compression rounds. -/
def rounds : List Nat → List Nat → Hash8 → Hash8
  | k :: ks, w :: ws, ⟨a, b, c, d, e, f, g, h⟩ =>
      let t1 := w32 (h + bigSigma1 e + shaCh e f g + k + w)
      let t2 := w32 (bigSigma0 a + shaMaj a b c)
      rounds ks ws ⟨w32 (t1 + t2), a, b, c, w32 (d + t1), e, f, g⟩
  | _, _, st => st

/-- Compress one 512-bit block (16 words) into the state. -/
def processBlock (st : Hash8) (ws16 : List Nat) : Hash8 :=
  let ws := extendW 48 ws16
  let r := rounds kConst ws st
  ⟨w32 (st.a + r.a), w32 (st.b + r.b), w32 (st.c + r.c), w32 (st.d + r.d),
    w32 (st.e + r.e), w32 (st.f + r.f), w32 (st.g + r.g), w32 (st.h + r.h)⟩

/-- Process the message words, 16 per block. -/
def processBlocks : List Nat → Hash8 → Hash8
  | w1 :: w2 :: w3 :: w4 :: w5 :: w6 :: w7 :: w8 ::
      w9 :: w10 :: w11 :: w12 :: w13 :: w14 :: w15 :: w16 :: rest, st =>
      processBlocks rest
        (processBlock st [w1, w2, w3, w4, w5, w6, w7, w8,
          w9, w10, w11, w12, w13, w14, w15, w16])
  | _, st => st

/-- Big-endian packing of bytes into 32-bit words. -/
def bytesToWords : List Nat → List Nat
  | b1 :: b2 :: b3 :: b4 :: rest =>
      (b1 * 16777216 + b2 * 65536 + b3 * 256 + b4) :: bytesToWords rest
  | _ => []

/-- The 8-byte big-endian encoding of the bit length. -/
def lengthBytes (n : Nat) : List Nat :=
  [n / 2 ^ 56 % 256, n / 2 ^ 48 % 256, n / 2 ^ 40 % 256, n / 2 ^ 32 % 256,
   n / 2 ^ 24 % 256, n / 2 ^ 16 % 256, n / 2 ^ 8 % 256, n % 256]

/-- SHA-256 padding: `0x80`, zeros to 56 mod 64, 8 length bytes. -/
def padMsg (msg : List Nat) : List Nat :=
  msg ++ 0x80 :: (List.replicate ((119 - msg.length % 64) % 64) 0 ++
    lengthBytes (8 * msg.length))

/-- The four big-endian bytes of a 32-bit word. -/
def wordBytes (w : Nat) : List Nat :=
  [w / 16777216 % 256, w / 65536 % 256, w / 256 % 256, w % 256]

/-- Lowercase hexadecimal digit. -/
def hexDigit (n : Nat) : Char :=
  if n < 10 then digitChar n else Char.ofNat (87 + n)

/-- Lowercase hexadecimal rendering of a byte string. -/
def hexOfBytes : List Nat → List Char
  | [] => []
  | b :: rest => hexDigit (b / 16) :: hexDigit (b % 16) :: hexOfBytes rest

/-- `hashlib.sha256(bytes).hexdigest()` on a byte string. -/
def sha256hex (msg : List Nat) : List Char :=
  let st := processBlocks (bytesToWords (padMsg msg)) initH
  hexOfBytes (wordBytes st.a ++ wordBytes st.b ++ wordBytes st.c ++ wordBytes st.d ++
    wordBytes st.e ++ wordBytes st.f ++ wordBytes st.g ++ wordBytes st.h)

/-- UTF-8 encoding of one character (`str.encode()`). -/
def utf8Char (c : Char) : List Nat :=
  let n := c.toNat
  if n < 128 then [n]
  else if n < 2048 then [192 + n / 64, 128 + n % 64]
  else if n < 65536 then [224 + n / 4096, 128 + n / 64 % 64, 128 + n % 64]
  else [240 + n / 262144, 128 + n / 4096 % 64, 128 + n / 64 % 64, 128 + n % 64]

/-- UTF-8 encoding of a string (`str.encode()`). -/
def utf8Encode (s : List Char) : List Nat := s.bind utf8Char

/-- `date.isoformat()`: `YYYY-MM-DD` (negative years, absent in Python's
`date` range, are given a leading minus sign). -/
def isoformat (d : Date) : List Char :=
  (if d.year < 0 then '-' :: padZero 4 (-d.year).toNat else padZero 4 d.year.toNat) ++
    '-' :: (padZero 2 d.month ++ '-' :: padZero 2 d.day)

/-- Lowercase-hex character test. -/
def isHexCh (c : Char) : Bool :=
  isDigitCh c || (decide ('a' ≤ c) && decide (c ≤ 'f'))

/-- `deduplication_service.generate_transaction_hash`.  The `amount`
argument stands for `str(amount)` (the decimal rendering of the
`Decimal`), and `accountId` for `str(account_id)`. -/
def generateTransactionHash (txnDate : Date) (amount rawDescription accountId : List Char) :
    List Char :=
  sha256hex (utf8Encode (isoformat txnDate ++ '|' ::
    (amount ++ '|' :: (lowerL (stripL rawDescription) ++ '|' :: accountId))))

/-! ## The person-payment regular expressions (`PERSON_PATTERNS`)

Hand-compiled matchers for the four concrete patterns, with Python `re`
semantics at one position: ordered alternation, greedy `\s+` / `[A-Z\s]+`
(maximal munch is exact here because nothing that follows them can match
a space), and backtracking over the optional groups in Python's order.
With `ci` the `re.IGNORECASE` flag used by `re.sub`. -/

/-- One pattern character against one input character (`ci` =
case-insensitive). -/
def chMatch (ci : Bool) (p c : Char) : Bool :=
  c == p || (ci && toUpperCh c == p)

/-- Consume a literal, returning the rest. -/
def litM (ci : Bool) : List Char → List Char → Option (List Char)
  | [], s => some s
  | _ :: _, [] => none
  | p :: ps, c :: cs => if chMatch ci p c then litM ci ps cs else none

/-- `\s+` (greedy). -/
def spacesP (s : List Char) : Option (List Char) :=
  match s with
  | c :: cs => if isSpaceCh c then some (cs.dropWhile isSpaceCh) else none
  | [] => none

/-- The class `[A-Z]` (lowercase added under `IGNORECASE`). -/
def classAZ (ci : Bool) (c : Char) : Bool :=
  (decide ('A' ≤ c) && decide (c ≤ 'Z')) ||
    (ci && decide ('a' ≤ c) && decide (c ≤ 'z'))

/-- The capture group `([A-Z][A-Z\s]+)` (greedy): captured text and rest. -/
def groupCapM (ci : Bool) (s : List Char) : Option (List Char × List Char) :=
  match s with
  | c :: cs =>
      if classAZ ci c then
        let body := cs.takeWhile (fun c2 => classAZ ci c2 || isSpaceCh c2)
        if body.isEmpty then none
        else some (c :: body, cs.dropWhile (fun c2 => classAZ ci c2 || isSpaceCh c2))
      else none
  | [] => none

/-- `VENMO\s+(?:PAYMENT\s+)?([A-Z][A-Z\s]+)` at one position:
`(captured, rest)`. -/
def venmoM (ci : Bool) (s : List Char) : Option (List Char × List Char) :=
  (litM ci "VENMO".data s).bind (fun s1 =>
    (spacesP s1).bind (fun s2 =>
      match (litM ci "PAYMENT".data s2).bind (fun s3 =>
          (spacesP s3).bind (fun s4 => groupCapM ci s4)) with
      | some r => some r
      | none => groupCapM ci s2))

/-- The shared tail `(?:TO\s+|FROM\s+)?([A-Z][A-Z\s]+)` of the ZELLE
pattern. -/
def toFromGroup (ci : Bool) (s : List Char) : Option (List Char × List Char) :=
  match (litM ci "TO".data s).bind (fun a => (spacesP a).bind (fun b => groupCapM ci b)) with
  | some r => some r
  | none =>
      match (litM ci "FROM".data s).bind (fun a =>
          (spacesP a).bind (fun b => groupCapM ci b)) with
      | some r => some r
      | none => groupCapM ci s

/-- `ZELLE\s+(?:PAYMENT\s+)?(?:TO\s+|FROM\s+)?([A-Z][A-Z\s]+)`. -/
def zelleM (ci : Bool) (s : List Char) : Option (List Char × List Char) :=
  (litM ci "ZELLE".data s).bind (fun s1 =>
    (spacesP s1).bind (fun s2 =>
      match (litM ci "PAYMENT".data s2).bind (fun s3 =>
          (spacesP s3).bind (fun s4 => toFromGroup ci s4)) with
      | some r => some r
      | none => toFromGroup ci s2))

/-- `PAYPAL\s+\*([A-Z][A-Z\s]+)`. -/
def paypalM (ci : Bool) (s : List Char) : Option (List Char × List Char) :=
  (litM ci "PAYPAL".data s).bind (fun s1 =>
    (spacesP s1).bind (fun s2 =>
      (litM ci "*".data s2).bind (fun s3 => groupCapM ci s3)))

/-- `CASH\s+APP\s+\*([A-Z][A-Z\s]+)`. -/
def cashappM (ci : Bool) (s : List Char) : Option (List Char × List Char) :=
  (litM ci "CASH".data s).bind (fun s1 =>
    (spacesP s1).bind (fun s2 =>
      (litM ci "APP".data s2).bind (fun s3 =>
        (spacesP s3).bind (fun s4 =>
          (litM ci "*".data s4).bind (fun s5 => groupCapM ci s5)))))

/-- `re.search`: captured group of the leftmost match. -/
def searchM (m : List Char → Option (List Char × List Char)) : List Char → Option (List Char)
  | [] => none
  | c :: rest =>
      match m (c :: rest) with
      | some (cap, _) => some cap
      | none => searchM m rest

/-- `re.sub` with a literal replacement: scan left to right, replace every
non-overlapping match (fuelled structural recursion; the guard on the
rest's length never fails for the matchers above, which always consume at
least one character). -/
def subAllGo (m : List Char → Option (List Char × List Char)) (repl : List Char) :
    Nat → List Char → List Char
  | 0, s => s
  | fuel + 1, s =>
      match s with
      | [] => []
      | c :: rest =>
          match m (c :: rest) with
          | some (_, rest2) =>
              if rest2.length < rest.length + 1 then repl ++ subAllGo m repl fuel rest2
              else c :: subAllGo m repl fuel rest
          | none => c :: subAllGo m repl fuel rest

/-- `re.sub` over a whole string. -/
def subAllM (m : List Char → Option (List Char × List Char)) (repl s : List Char) :
    List Char :=
  subAllGo m repl (s.length + 1) s

/-- One iteration of the `PERSON_PATTERNS` loop in
`tokenize_description`: search the uppercased original description
(case-sensitively), and on a hit tokenize the stripped captured name and
substitute every match in the running result (case-insensitively). -/
def descStep (st : TokState) (description result : List Char)
    (m : Bool → List Char → Option (List Char × List Char)) (service : List Char) :
    List Char × TokState :=
  match searchM (m false) (upperL description) with
  | some cap =>
      let p := tokenizePerson st (stripL cap)
      (subAllM (m true) (service ++ ' ' :: p.1) result, p.2)
  | none => (result, st)

/-- `TokenizationService.tokenize_description`. -/
def tokenizeDescription (st : TokState) (description : List Char) : List Char × TokState :=
  let r1 := descStep st description description venmoM "VENMO".data
  let r2 := descStep r1.2 description r1.1 zelleM "ZELLE".data
  let r3 := descStep r2.2 description r2.1 paypalM "PAYPAL".data
  descStep r3.2 description r3.1 cashappM "CASH APP".data

/-- Specification of `re.sub` with a literal replacement (the words of the
claim, as amended): the output is the input with every non-overlapping
match of the matcher, scanned left to right, replaced by `repl`, and
every character outside the matches kept unchanged. -/
inductive SubRel (m : List Char → Option (List Char × List Char)) (repl : List Char) :
    List Char → List Char → Prop
  | nil : SubRel m repl [] []
  | keep (c : Char) (s out : List Char) :
      m (c :: s) = none → SubRel m repl s out → SubRel m repl (c :: s) (c :: out)
  | rep (c : Char) (s rest2 out cap : List Char) :
      m (c :: s) = some (cap, rest2) → rest2.length < s.length + 1 →
      SubRel m repl rest2 out → SubRel m repl (c :: s) (repl ++ out)

/-- Specification of one `PERSON_PATTERNS` iteration (claim-side): search
the uppercased original description; on a hit, mint the person token of
the first match's stripped captured name and replace every match in the
running text with the service keyword and that token; otherwise leave
text and store alone. -/
def StepSpec (st : TokState) (description current : List Char)
    (m : Bool → List Char → Option (List Char × List Char)) (service : List Char)
    (res : List Char × TokState) : Prop :=
  match searchM (m false) (upperL description) with
  | some cap =>
      SubRel (m true) (service ++ ' ' :: (tokenizePerson st (stripL cap)).1)
        current res.1 ∧ res.2 = (tokenizePerson st (stripL cap)).2
  | none => res = (current, st)

/-- Claim-side specification of `tokenize_description`: the four known
patterns applied in order, each replacing every match. -/
def DescSpec (st : TokState) (text : List Char) (res : List Char × TokState) : Prop :=
  ∃ r1 r2 r3 : List Char × TokState,
    StepSpec st text text venmoM "VENMO".data r1 ∧
    StepSpec r1.2 text r1.1 zelleM "ZELLE".data r2 ∧
    StepSpec r2.2 text r2.1 paypalM "PAYPAL".data r3 ∧
    StepSpec r3.2 text r3.1 cashappM "CASH APP".data res

/-! ## `detokenize`

The wire pattern is `(MERCHANT_\d{4}|ACCOUNT_\d{3}|PERSON_\d{3})`;
`re.finditer` collects its non-overlapping matches in the original text,
left to right, and each found token with a reverse-cache entry is
replaced everywhere in the running result by `str.replace`. -/

/-- `\d{n}`: exactly `n` digits, returning `(digits, rest)`. -/
def takeDigits : Nat → List Char → Option (List Char × List Char)
  | 0, s => some ([], s)
  | _ + 1, [] => none
  | n + 1, c :: cs =>
      if isDigitCh c then
        match takeDigits n cs with
        | some (ds, rest) => some (c :: ds, rest)
        | none => none
      else none

/-- The token pattern at one position (ordered alternation, as written in
the regex). -/
def matchTokenAt (s : List Char) : Option (List Char × List Char) :=
  match (litM false mercPre s).bind (takeDigits 4) with
  | some (ds, rest) => some (mercPre ++ ds, rest)
  | none =>
      match (litM false accPre s).bind (takeDigits 3) with
      | some (ds, rest) => some (accPre ++ ds, rest)
      | none =>
          match (litM false persPre s).bind (takeDigits 3) with
          | some (ds, rest) => some (persPre ++ ds, rest)
          | none => none

/-- `re.finditer` scan: matched token strings in order of appearance,
non-overlapping, advancing one character where nothing matches.
Structural fuel (`fuel > length` suffices: every step consumes at least
one character). -/
def findTokensGo : Nat → List Char → List (List Char)
  | 0, _ => []
  | _ + 1, [] => []
  | fuel + 1, c :: cs =>
      match matchTokenAt (c :: cs) with
      | some (t, rest) => t :: findTokensGo fuel rest
      | none => findTokensGo fuel cs

/-- All token-pattern matches of a text, in order. -/
def findTokens (s : List Char) : List (List Char) := findTokensGo (s.length + 1) s

/-- `str.replace`: matcher form of searching a literal `old` (matches of
the scanner are exactly the occurrences of `old`). -/
def replOf (old : List Char) (s : List Char) : Option (List Char × List Char) :=
  (litM false old s).map (fun rest => (old, rest))

/-- `str.replace(old, new)`: every non-overlapping occurrence, left to
right (`old` is always a nonempty token string at the call site). -/
def replaceAll (s old new : List Char) : List Char := subAllM (replOf old) new s

/-- `TokenizationService.detokenize`. -/
def detokenizeL (st : TokState) (text : List Char) : List Char :=
  (findTokens text).foldl
    (fun result tk =>
      match alookup st.reverseCache tk with
      | some orig => replaceAll result tk orig
      | none => result)
    text

/-! ### Claim-side view of `detokenize`: scanned segments -/

/-- A piece of scanned text: a literal character, or one token-pattern
match. -/
inductive Seg where
  | lit (c : Char)
  | tok (t : List Char)
deriving DecidableEq, Repr

/-- The `finditer` scan keeping the literal characters too. -/
def scanSegsGo : Nat → List Char → List Seg
  | 0, _ => []
  | _ + 1, [] => []
  | fuel + 1, c :: cs =>
      match matchTokenAt (c :: cs) with
      | some (t, rest) => Seg.tok t :: scanSegsGo fuel rest
      | none => Seg.lit c :: scanSegsGo fuel cs

/-- Segments of a text. -/
def scanSegs (s : List Char) : List Seg := scanSegsGo (s.length + 1) s

/-- The tokens of a segment list, in order. -/
def segTokens : List Seg → List (List Char)
  | [] => []
  | Seg.lit _ :: S2 => segTokens S2
  | Seg.tok t :: S2 => t :: segTokens S2

/-- Segments rendered back as the text they were scanned from. -/
def renderId : List Seg → List Char
  | [] => []
  | Seg.lit c :: S2 => c :: renderId S2
  | Seg.tok t :: S2 => t ++ renderId S2

/-- The claim's words: every token-pattern match replaced by its stored
original value (issued tokens), kept verbatim (never-issued token-shaped
strings), all non-token text unchanged. -/
def renderFull (st : TokState) : List Seg → List Char
  | [] => []
  | Seg.lit c :: S2 => c :: renderFull st S2
  | Seg.tok t :: S2 =>
      (match alookup st.reverseCache t with
       | some o => o
       | none => t) ++ renderFull st S2

/-- Rendering with only the tokens in `P` substituted so far. -/
def rendAll (st : TokState) (P : List (List Char)) : List Seg → List Char
  | [] => []
  | Seg.lit c :: S2 => c :: rendAll st P S2
  | Seg.tok t :: S2 =>
      (if t ∈ P then
        match alookup st.reverseCache t with
        | some o => o
        | none => t
       else t) ++ rendAll st P S2

/-- A list of decimal digit characters. -/
def allDigits (ds : List Char) : Prop := ∀ c ∈ ds, isDigitCh c = true

/-- A string of the token wire format. -/
def tokenShaped (t : List Char) : Prop :=
  (∃ ds, ds.length = 4 ∧ allDigits ds ∧ t = mercPre ++ ds) ∨
  (∃ ds, ds.length = 3 ∧ allDigits ds ∧ t = accPre ++ ds) ∨
  (∃ ds, ds.length = 3 ∧ allDigits ds ∧ t = persPre ++ ds)

/-- What the scanner guarantees about its output: tokens are
token-shaped, and no token-pattern match starts at a literal character. -/
def wfSegs : List Seg → Prop
  | [] => True
  | Seg.lit c :: S2 => matchTokenAt (c :: renderId S2) = none ∧ wfSegs S2
  | Seg.tok t :: S2 => tokenShaped t ∧ wfSegs S2

/-- The letters of the merchant token prefix. -/
def lettersM : List Char := ['M', 'E', 'R', 'C', 'H', 'A', 'N', 'T']

/-- The letters of the account token prefix. -/
def lettersA : List Char := ['A', 'C', 'C', 'O', 'U', 'N', 'T']

/-- The letters of the person token prefix. -/
def lettersP : List Char := ['P', 'E', 'R', 'S', 'O', 'N']

/-- An original value that cannot interact with the token pattern when
spliced into arbitrary text: it is nonempty, holds no digit and no
underscore, no suffix of it starts a token prefix word, and it is not a
substring of a token prefix word. Every realistic merchant, account or
person name (`Whole Foods`, `JOHN SMITH`, …) qualifies; decidable, so
concrete caches can be checked by evaluation. -/
def okOriginal (o : List Char) : Prop :=
  o ≠ [] ∧
  (∀ c ∈ o, isDigitCh c = false ∧ c ≠ '_') ∧
  (∀ j, j < o.length →
    ¬ (o.drop j <+: lettersM) ∧ ¬ (o.drop j <+: lettersA) ∧ ¬ (o.drop j <+: lettersP)) ∧
  ¬ (o <:+: lettersM) ∧ ¬ (o <:+: lettersA) ∧ ¬ (o <:+: lettersP)

instance (o : List Char) : Decidable (okOriginal o) := by
  unfold okOriginal
  infer_instance

/-! ## Transaction mappings (`tokenize_transaction_for_ai`) -/

/-- A dict value: a string, a `datetime.date`, or any other Python value
(opaque; modelled as truthy, which matches every value the service's
call sites store in the non-string fields). -/
inductive Val where
  | s (v : List Char)
  | d (dt : Date)
  | other (n : Nat)
deriving DecidableEq, Repr

/-- A Python dict in insertion order (keys unique in any dict-built list;
reads take the first hit). -/
abbrev Dict : Type := List (String × Val)

/-- Dict assignment: overwrite in place, else append. -/
def dset : Dict → String → Val → Dict
  | [], k, v => [(k, v)]
  | (k1, v1) :: rest, k, v =>
      if k = k1 then (k, v) :: rest else (k1, v1) :: dset rest k v

/-- `dict.pop(k, None)`: drop the key. -/
def dpop : Dict → String → Dict
  | [], _ => []
  | (k1, v1) :: rest, k => if k = k1 then rest else (k1, v1) :: dpop rest k

/-- Python truthiness of the values that can appear here (`""` and `None`
are the falsy cases relevant to the service; `other` stands for values
like nonzero numbers). -/
def valTruthy : Val → Bool
  | .s v => !v.isEmpty
  | .d _ => true
  | .other _ => true

/-- Python `x or y` over an optional lookup result. -/
def pyOr (x : Option Val) (y : Val) : Val :=
  match x with
  | some v => if valTruthy v then v else y
  | none => y

/-- An f-string rendering of a value (strings verbatim; the call sites
only format strings). -/
def fmtVal : Val → List Char
  | .s v => v
  | .d dt => isoformat dt
  | .other n => natDigits n

/-- `datetime.fromisoformat(...).date()` on the `YYYY-MM-DD` form
(other accepted forms do not occur in this service's data). -/
def parseIsoDate (s : List Char) : Option Date :=
  match s with
  | [y1, y2, y3, y4, '-', m1, m2, '-', d1, d2] =>
      if [y1, y2, y3, y4, m1, m2, d1, d2].all isDigitCh then
        mkDate? (fromDigits [y1, y2, y3, y4] : Nat) (fromDigits [m1, m2])
          (fromDigits [d1, d2])
      else none
  | _ => none

/-- The merchant block of `tokenize_transaction_for_ai` (`none` models an
exception from calling `.strip()` on a non-string merchant value). -/
def merchBlock (st : TokState) (result : Dict) (includeCategory : Bool) :
    Option (Dict × TokState) :=
  if (alookup result "merchant").isSome || (alookup result "clean_merchant").isSome then
    let mval := pyOr (alookup result "clean_merchant")
      (match alookup result "merchant" with
        | some v => v
        | none => .s [])
    let category := if includeCategory then alookup result "category_name" else none
    match mval with
    | .s merchant =>
        let p := tokenizeMerchant st merchant
        let newField : Val :=
          match category with
          | some cv =>
              if includeCategory && valTruthy cv then
                .s (p.1 ++ ' ' :: '[' :: (fmtVal cv ++ [']']))
              else .s p.1
          | none => .s p.1
        some (dpop (dpop (dset result "merchant" newField) "clean_merchant")
          "raw_description", p.2)
    | _ => none
  else some (result, st)

/-- The description block (`none` models `.upper()` on a non-string). -/
def descBlock (st : TokState) (result : Dict) : Option (Dict × TokState) :=
  match alookup result "description" with
  | some (.s dstr) =>
      let p := tokenizeDescription st dstr
      some (dset result "description" (.s p.1), p.2)
  | some _ => none
  | none => some (result, st)

/-- The date block (`none` models `fromisoformat` raising on a malformed
string, or date arithmetic on a non-date, non-string value). -/
def dateBlock (st : TokState) (rnd : Int) (result : Dict) : Option (Dict × TokState) :=
  match alookup result "date" with
  | some (.s ds) =>
      match parseIsoDate ds with
      | some dt =>
          let p := shiftDate st rnd dt
          some (dset result "date" (.s (isoformat p.1)), p.2)
      | none => none
  | some (.d dt) =>
      let p := shiftDate st rnd dt
      some (dset result "date" (.s (isoformat p.1)), p.2)
  | some (.other _) => none
  | none => some (result, st)

/-- The account block (`none` models `.strip()` on a non-string name). -/
def acctBlock (st : TokState) (result : Dict) : Option (Dict × TokState) :=
  match alookup result "account_name" with
  | some (.s aname) =>
      let p := tokenizeAccount st aname
      some (dpop (dpop (dset result "account" (.s p.1)) "account_name")
        "account_type", p.2)
  | some _ => none
  | none => some (result, st)

/-- `TokenizationService.tokenize_transaction_for_ai`, on a copy of the
input dict (`result = dict(transaction)`); `rnd` as in `getDateShift`. -/
def tokenizeTransactionForAI (st : TokState) (rnd : Int) (transaction : Dict)
    (includeCategory : Bool) : Option (Dict × TokState) :=
  match merchBlock st transaction includeCategory with
  | none => none
  | some q1 =>
      match descBlock q1.2 q1.1 with
      | none => none
      | some q2 =>
          match dateBlock q2.2 rnd q2.1 with
          | none => none
          | some q3 => acctBlock q3.2 q3.1

/-! ## Theorems -/

theorem daysInMonth_pos {y : Int} {m : Nat} (h1 : 1 ≤ m) (h2 : m ≤ 12) :
    1 ≤ daysInMonth y m := by
  unfold daysInMonth
  split_ifs <;> omega

theorem daysInMonth_ge_28 {y : Int} {m : Nat} (h1 : 1 ≤ m) (h2 : m ≤ 12) :
    28 ≤ daysInMonth y m := by
  unfold daysInMonth
  split_ifs <;> omega

theorem daysInMonth_le_31 {y : Int} (m : Nat) : daysInMonth y m ≤ 31 := by
  unfold daysInMonth
  split_ifs <;> omega

theorem daysInMonth_12 (y : Int) : daysInMonth y 12 = 31 := by
  unfold daysInMonth
  split_ifs <;> omega

theorem daysInMonth_1 (y : Int) : daysInMonth y 1 = 31 := by
  unfold daysInMonth
  split_ifs <;> omega

theorem validDate_iff {d : Date} :
    validDate d = true ↔
      1 ≤ d.month ∧ d.month ≤ 12 ∧ 1 ≤ d.day ∧ d.day ≤ daysInMonth d.year d.month := by
  unfold validDate
  exact decide_eq_true_iff

theorem nextDay_valid {d : Date} (h : validDate d = true) :
    validDate (nextDay d) = true := by
  rw [validDate_iff] at h
  obtain ⟨y, m, dd⟩ := d
  dsimp only at h
  obtain ⟨h1, h2, h3, h4⟩ := h
  unfold nextDay
  dsimp only
  split_ifs with c1 c2
  · rw [validDate_iff]
    dsimp only
    exact ⟨h1, h2, by omega, by omega⟩
  · rw [validDate_iff]
    dsimp only
    exact ⟨by omega, by omega, by omega, daysInMonth_pos (by omega) (by omega)⟩
  · rw [validDate_iff]
    dsimp only
    exact ⟨by omega, by omega, by omega, by rw [daysInMonth_1]; omega⟩

theorem prevDay_valid {d : Date} (h : validDate d = true) :
    validDate (prevDay d) = true := by
  rw [validDate_iff] at h
  obtain ⟨y, m, dd⟩ := d
  dsimp only at h
  obtain ⟨h1, h2, h3, h4⟩ := h
  unfold prevDay
  dsimp only
  split_ifs with c1 c2
  · rw [validDate_iff]
    dsimp only
    exact ⟨h1, h2, by omega, by omega⟩
  · rw [validDate_iff]
    dsimp only
    exact ⟨by omega, by omega, daysInMonth_pos (by omega) (by omega), le_refl _⟩
  · rw [validDate_iff]
    dsimp only
    exact ⟨by omega, by omega, by omega, by rw [daysInMonth_12]⟩

theorem dateLt_nextDay {d : Date} (h : validDate d = true) : dateLt d (nextDay d) := by
  rw [validDate_iff] at h
  obtain ⟨y, m, dd⟩ := d
  dsimp only at h
  obtain ⟨h1, h2, h3, h4⟩ := h
  unfold nextDay dateLt
  dsimp only
  split_ifs with c1 c2 <;> dsimp only <;> omega

theorem dateLt_trans {a b c : Date} (h1 : dateLt a b) (h2 : dateLt b c) :
    dateLt a c := by
  unfold dateLt at *
  omega

theorem prevDay_nextDay {d : Date} (h : validDate d = true) :
    prevDay (nextDay d) = d := by
  rw [validDate_iff] at h
  obtain ⟨y, m, dd⟩ := d
  dsimp only at h
  obtain ⟨h1, h2, h3, h4⟩ := h
  unfold nextDay
  dsimp only
  split_ifs with c1 c2
  · unfold prevDay
    dsimp only
    rw [if_pos (show 1 < dd + 1 by omega)]
    ext <;> dsimp only <;> omega
  · unfold prevDay
    dsimp only
    rw [if_neg (by omega), if_pos (by omega), Nat.add_sub_cancel]
    ext <;> dsimp only <;> omega
  · unfold prevDay
    dsimp only
    rw [if_neg (by omega), if_neg (by omega)]
    have hm : m = 12 := by omega
    subst hm
    have h31 := daysInMonth_12 y
    ext <;> dsimp only <;> omega

theorem nextDay_prevDay {d : Date} (h : validDate d = true) :
    nextDay (prevDay d) = d := by
  rw [validDate_iff] at h
  obtain ⟨y, m, dd⟩ := d
  dsimp only at h
  obtain ⟨h1, h2, h3, h4⟩ := h
  unfold prevDay
  dsimp only
  split_ifs with c1 c2
  · unfold nextDay
    dsimp only
    rw [if_pos (show dd - 1 < daysInMonth y m by omega)]
    ext <;> dsimp only <;> omega
  · unfold nextDay
    dsimp only
    rw [if_neg (show ¬ daysInMonth y (m - 1) < daysInMonth y (m - 1) by omega)]
    rw [if_pos (show m - 1 < 12 by omega)]
    ext <;> dsimp only <;> omega
  · have hm : m = 1 := by omega
    have hd : dd = 1 := by omega
    subst hm
    subst hd
    unfold nextDay
    dsimp only
    rw [if_neg (by rw [daysInMonth_12]; omega), if_neg (by omega)]
    ext <;> dsimp only <;> omega

theorem addDays_valid {d : Date} (n : Nat) (h : validDate d = true) :
    validDate (addDays d n) = true := by
  induction n with
  | zero => simpa [addDays]
  | succ k ih =>
      unfold addDays at *
      rw [Function.iterate_succ_apply']
      exact nextDay_valid ih

theorem subDays_valid {d : Date} (n : Nat) (h : validDate d = true) :
    validDate (subDays d n) = true := by
  induction n with
  | zero => simpa [subDays]
  | succ k ih =>
      unfold subDays at *
      rw [Function.iterate_succ_apply']
      exact prevDay_valid ih

theorem dateLt_addDays {d : Date} {n : Nat} (h : validDate d = true) (hn : 0 < n) :
    dateLt d (addDays d n) := by
  induction n with
  | zero => omega
  | succ k ih =>
      unfold addDays at *
      rw [Function.iterate_succ_apply']
      rcases Nat.eq_zero_or_pos k with hk | hk
      · subst hk
        simpa using dateLt_nextDay h
      · have hv := addDays_valid (d := d) k h
        unfold addDays at hv
        exact dateLt_trans (ih hk) (dateLt_nextDay hv)

theorem subDays_addDays {d : Date} (n : Nat) (h : validDate d = true) :
    subDays (addDays d n) n = d := by
  induction n with
  | zero => simp [addDays, subDays]
  | succ k ih =>
      unfold addDays subDays at *
      rw [Function.iterate_succ_apply' (f := nextDay), Function.iterate_succ_apply (f := prevDay)]
      have hv := addDays_valid (d := d) k h
      unfold addDays at hv
      rw [prevDay_nextDay hv]
      exact ih

theorem addDays_subDays {d : Date} (n : Nat) (h : validDate d = true) :
    addDays (subDays d n) n = d := by
  induction n with
  | zero => simp [addDays, subDays]
  | succ k ih =>
      unfold addDays subDays at *
      rw [Function.iterate_succ_apply' (f := prevDay), Function.iterate_succ_apply (f := nextDay)]
      have hv := subDays_valid (d := d) k h
      unfold subDays at hv
      rw [nextDay_prevDay hv]
      exact ih


theorem mkDate?_pos {y : Int} {m dd : Nat} (h : validDate ⟨y, m, dd⟩ = true) :
    mkDate? y m dd = some ⟨y, m, dd⟩ := by
  unfold mkDate?
  rw [if_pos h]

theorem mkDate?_neg {y : Int} {m dd : Nat} (h : validDate ⟨y, m, dd⟩ = false) :
    mkDate? y m dd = none := by
  unfold mkDate?
  simp [h]

theorem mkDate?_elim {y : Int} {m dd : Nat} {r : Date} (h : mkDate? y m dd = some r) :
    r = ⟨y, m, dd⟩ ∧ validDate ⟨y, m, dd⟩ = true := by
  unfold mkDate? at h
  split_ifs at h with hc
  exact ⟨(Option.some.inj h).symm, hc⟩

theorem validDate_false {d : Date}
    (h : ¬ (1 ≤ d.month ∧ d.month ≤ 12 ∧ 1 ≤ d.day ∧ d.day ≤ daysInMonth d.year d.month)) :
    validDate d = false := by
  unfold validDate
  exact decide_eq_false h

/-- **C6**: `calculate_next_expected` computes: weekly(2024-01-15) = 2024-01-22;
monthly(2024-01-31) = 2024-02-28 (day-of-month kept, clamped to day 28 when the
target month is too short); quarterly(2024-11-15) = 2025-02-15 (month + 3 rolling
the year); yearly(2024-02-29) = 2025-02-28; and for an unspecified/unknown
frequency, `last_date + 30` days. -/
theorem calculateNextExpected_examples :
    calculateNextExpected ⟨2024, 1, 15⟩ .weekly = some ⟨2024, 1, 22⟩ ∧
    calculateNextExpected ⟨2024, 1, 31⟩ .monthly = some ⟨2024, 2, 28⟩ ∧
    calculateNextExpected ⟨2024, 11, 15⟩ .quarterly = some ⟨2025, 2, 15⟩ ∧
    calculateNextExpected ⟨2024, 2, 29⟩ .yearly = some ⟨2025, 2, 28⟩ ∧
    ∀ d : Date, calculateNextExpected d .other = some (addDays d 30) :=
  ⟨by decide, by decide, by decide, by decide, fun _ => rfl⟩

/-- **C9**: for every valid calendar date and every frequency argument
(including the unknown-frequency fallback), any date returned by
`calculate_next_expected` is strictly later than `last_date`, on the
clamp-to-28 and leap-day fallback paths included. -/
theorem calculateNextExpected_strictly_later (d : Date) (fr : FreqArg) (r : Date)
    (hv : validDate d = true) (hr : calculateNextExpected d fr = some r) :
    dateLt d r := by
  have h := hv
  rw [validDate_iff] at h
  obtain ⟨y, m, dd⟩ := d
  dsimp only at h
  obtain ⟨h1, h2, h3, h4⟩ := h
  cases fr with
  | weekly =>
      simp only [calculateNextExpected, Option.some.injEq] at hr
      subst hr
      exact dateLt_addDays hv (by omega)
  | biweekly =>
      simp only [calculateNextExpected, Option.some.injEq] at hr
      subst hr
      exact dateLt_addDays hv (by omega)
  | other =>
      simp only [calculateNextExpected, Option.some.injEq] at hr
      subst hr
      exact dateLt_addDays hv (by omega)
  | monthly =>
      simp only [calculateNextExpected] at hr
      by_cases hm : m = 12
      · subst hm
        rw [if_pos (by simp)] at hr
        obtain ⟨hre, _⟩ := mkDate?_elim hr
        subst hre
        unfold dateLt
        dsimp only
        omega
      · rw [if_neg (by simp [hm])] at hr
        cases hx : mkDate? y (m + 1) dd with
        | some d₁ =>
            rw [hx] at hr
            dsimp only at hr
            rw [Option.some.injEq] at hr
            obtain ⟨hre, _⟩ := mkDate?_elim hx
            subst hr
            subst hre
            unfold dateLt
            dsimp only
            omega
        | none =>
            rw [hx] at hr
            dsimp only at hr
            obtain ⟨hre, _⟩ := mkDate?_elim hr
            subst hre
            unfold dateLt
            dsimp only
            omega
  | quarterly =>
      simp only [calculateNextExpected] at hr
      by_cases hq : m + 3 > 12
      · rw [if_pos hq, if_pos hq] at hr
        cases hx : mkDate? (y + 1) (m + 3 - 12) dd with
        | some d₁ =>
            rw [hx] at hr
            dsimp only at hr
            rw [Option.some.injEq] at hr
            obtain ⟨hre, _⟩ := mkDate?_elim hx
            subst hr
            subst hre
            unfold dateLt
            dsimp only
            omega
        | none =>
            rw [hx] at hr
            dsimp only at hr
            obtain ⟨hre, _⟩ := mkDate?_elim hr
            subst hre
            unfold dateLt
            dsimp only
            omega
      · rw [if_neg hq, if_neg hq] at hr
        cases hx : mkDate? y (m + 3) dd with
        | some d₁ =>
            rw [hx] at hr
            dsimp only at hr
            rw [Option.some.injEq] at hr
            obtain ⟨hre, _⟩ := mkDate?_elim hx
            subst hr
            subst hre
            unfold dateLt
            dsimp only
            omega
        | none =>
            rw [hx] at hr
            dsimp only at hr
            obtain ⟨hre, _⟩ := mkDate?_elim hr
            subst hre
            unfold dateLt
            dsimp only
            omega
  | yearly =>
      simp only [calculateNextExpected] at hr
      cases hx : mkDate? (y + 1) m dd with
      | some d₁ =>
          rw [hx] at hr
          dsimp only at hr
          rw [Option.some.injEq] at hr
          obtain ⟨hre, _⟩ := mkDate?_elim hx
          subst hr
          subst hre
          unfold dateLt
          dsimp only
          omega
      | none =>
          rw [hx] at hr
          dsimp only at hr
          obtain ⟨hre, _⟩ := mkDate?_elim hr
          subst hre
          unfold dateLt
          dsimp only
          omega

/-- Witness for C9 at a concrete input (the monthly clamp path). -/
theorem calculateNextExpected_strictly_later_witness :
    dateLt ⟨2024, 1, 31⟩ ⟨2024, 2, 28⟩ :=
  calculateNextExpected_strictly_later ⟨2024, 1, 31⟩ .monthly ⟨2024, 2, 28⟩
    (by decide) (by decide)

/-- Totality of the year-idealized projection: with the `datetime` year
range idealized away, every valid date and frequency yields a valid
date (the quarterly month arithmetic stays in 1..12 and the day-28
fallbacks always succeed). Helper for the bounded statement below. -/
theorem calculateNextExpected_total (d : Date) (fr : FreqArg)
    (hv : validDate d = true) :
    ∃ r, calculateNextExpected d fr = some r ∧ validDate r = true := by
  have h := hv
  rw [validDate_iff] at h
  obtain ⟨y, m, dd⟩ := d
  dsimp only at h
  obtain ⟨h1, h2, h3, h4⟩ := h
  cases fr with
  | weekly => exact ⟨_, rfl, addDays_valid 7 hv⟩
  | biweekly => exact ⟨_, rfl, addDays_valid 14 hv⟩
  | other => exact ⟨_, rfl, addDays_valid 30 hv⟩
  | monthly =>
      simp only [calculateNextExpected]
      by_cases hm : m = 12
      · subst hm
        rw [if_pos (by simp)]
        have hvv : validDate ⟨y + 1, 1, dd⟩ = true := by
          rw [validDate_iff]
          dsimp only
          refine ⟨by omega, by omega, by omega, ?_⟩
          show dd ≤ daysInMonth (y + 1) 1
          rw [daysInMonth_1]
          have := daysInMonth_12 y
          omega
        exact ⟨_, mkDate?_pos hvv, hvv⟩
      · rw [if_neg (by simp [hm])]
        by_cases hd : dd ≤ daysInMonth y (m + 1)
        · have hvv : validDate ⟨y, m + 1, dd⟩ = true := by
            rw [validDate_iff]
            dsimp only
            exact ⟨by omega, by omega, by omega, hd⟩
          rw [mkDate?_pos hvv]
          exact ⟨_, rfl, hvv⟩
        · have hno : validDate ⟨y, m + 1, dd⟩ = false := by
            apply validDate_false
            dsimp only
            omega
          rw [mkDate?_neg hno]
          have hvv : validDate ⟨y, m + 1, 28⟩ = true := by
            rw [validDate_iff]
            dsimp only
            exact ⟨by omega, by omega, by omega,
              daysInMonth_ge_28 (by omega) (by omega)⟩
          exact ⟨_, mkDate?_pos hvv, hvv⟩
  | quarterly =>
      simp only [calculateNextExpected]
      by_cases hq : m + 3 > 12
      · rw [if_pos hq, if_pos hq]
        by_cases hd : dd ≤ daysInMonth (y + 1) (m + 3 - 12)
        · have hvv : validDate ⟨y + 1, m + 3 - 12, dd⟩ = true := by
            rw [validDate_iff]
            dsimp only
            exact ⟨by omega, by omega, by omega, hd⟩
          rw [mkDate?_pos hvv]
          exact ⟨_, rfl, hvv⟩
        · have hno : validDate ⟨y + 1, m + 3 - 12, dd⟩ = false := by
            apply validDate_false
            dsimp only
            omega
          rw [mkDate?_neg hno]
          have hvv : validDate ⟨y + 1, m + 3 - 12, 28⟩ = true := by
            rw [validDate_iff]
            dsimp only
            exact ⟨by omega, by omega, by omega,
              daysInMonth_ge_28 (by omega) (by omega)⟩
          exact ⟨_, mkDate?_pos hvv, hvv⟩
      · rw [if_neg hq, if_neg hq]
        by_cases hd : dd ≤ daysInMonth y (m + 3)
        · have hvv : validDate ⟨y, m + 3, dd⟩ = true := by
            rw [validDate_iff]
            dsimp only
            exact ⟨by omega, by omega, by omega, hd⟩
          rw [mkDate?_pos hvv]
          exact ⟨_, rfl, hvv⟩
        · have hno : validDate ⟨y, m + 3, dd⟩ = false := by
            apply validDate_false
            dsimp only
            omega
          rw [mkDate?_neg hno]
          have hvv : validDate ⟨y, m + 3, 28⟩ = true := by
            rw [validDate_iff]
            dsimp only
            exact ⟨by omega, by omega, by omega,
              daysInMonth_ge_28 (by omega) (by omega)⟩
          exact ⟨_, mkDate?_pos hvv, hvv⟩
  | yearly =>
      simp only [calculateNextExpected]
      by_cases hd : dd ≤ daysInMonth (y + 1) m
      · have hvv : validDate ⟨y + 1, m, dd⟩ = true := by
          rw [validDate_iff]
          dsimp only
          exact ⟨by omega, by omega, by omega, hd⟩
        rw [mkDate?_pos hvv]
        exact ⟨_, rfl, hvv⟩
      · have hno : validDate ⟨y + 1, m, dd⟩ = false := by
          apply validDate_false
          dsimp only
          omega
        rw [mkDate?_neg hno]
        have hvv : validDate ⟨y + 1, m, 28⟩ = true := by
          rw [validDate_iff]
          dsimp only
          exact ⟨by omega, by omega, by omega,
            daysInMonth_ge_28 (by omega) (by omega)⟩
        exact ⟨_, mkDate?_pos hvv, hvv⟩

/-- Adding up to 30 days moves the year up by at most one, and a date
that did roll over sits early in January. -/
theorem addDays_year_inv : ∀ (n : Nat) (d : Date), n ≤ 30 →
    (addDays d n).year = d.year ∨
      ((addDays d n).year = d.year + 1 ∧ (addDays d n).month = 1 ∧
        (addDays d n).day ≤ n) := by
  intro n
  induction n with
  | zero => intro d _; left; rfl
  | succ k ih =>
      intro d hk
      have hstep : addDays d (k + 1) = nextDay (addDays d k) := by
        unfold addDays
        rw [Function.iterate_succ_apply']
      rw [hstep]
      rcases ih d (by omega) with h | ⟨h1, h2, h3⟩
      · unfold nextDay
        split_ifs with hc1 hc2
        · left
          dsimp only
          exact h
        · left
          dsimp only
          exact h
        · right
          refine ⟨?_, rfl, ?_⟩
          · dsimp only
            omega
          · dsimp only
            omega
      · unfold nextDay
        rw [h2, daysInMonth_1]
        rw [if_pos (show (addDays d k).day < 31 by omega)]
        right
        dsimp only
        exact ⟨h1, rfl, by omega⟩

/-- Every returned projection keeps the year or moves it up by one. -/
theorem calculateNextExpected_year_le (d : Date) (fr : FreqArg) (r : Date)
    (hr : calculateNextExpected d fr = some r) :
    d.year ≤ r.year ∧ r.year ≤ d.year + 1 := by
  obtain ⟨y, m, dd⟩ := d
  dsimp only
  cases fr with
  | weekly =>
      simp only [calculateNextExpected, Option.some.injEq] at hr
      subst hr
      rcases addDays_year_inv 7 ⟨y, m, dd⟩ (by omega) with h | ⟨h, -, -⟩ <;>
        (dsimp only at h; omega)
  | biweekly =>
      simp only [calculateNextExpected, Option.some.injEq] at hr
      subst hr
      rcases addDays_year_inv 14 ⟨y, m, dd⟩ (by omega) with h | ⟨h, -, -⟩ <;>
        (dsimp only at h; omega)
  | other =>
      simp only [calculateNextExpected, Option.some.injEq] at hr
      subst hr
      rcases addDays_year_inv 30 ⟨y, m, dd⟩ (by omega) with h | ⟨h, -, -⟩ <;>
        (dsimp only at h; omega)
  | monthly =>
      simp only [calculateNextExpected] at hr
      by_cases hm : m = 12
      · subst hm
        rw [if_pos (by simp)] at hr
        obtain ⟨h1, -⟩ := mkDate?_elim hr
        subst h1
        dsimp only
        omega
      · rw [if_neg (by simp [hm])] at hr
        cases hx : mkDate? y (m + 1) dd with
        | some d2 =>
            rw [hx] at hr
            obtain rfl := Option.some.inj hr
            obtain ⟨h1, -⟩ := mkDate?_elim hx
            subst h1
            dsimp only
            omega
        | none =>
            rw [hx] at hr
            obtain ⟨h1, -⟩ := mkDate?_elim hr
            subst h1
            dsimp only
            omega
  | quarterly =>
      simp only [calculateNextExpected] at hr
      by_cases hq : m + 3 > 12
      · rw [if_pos hq, if_pos hq] at hr
        cases hx : mkDate? (y + 1) (m + 3 - 12) dd with
        | some d2 =>
            rw [hx] at hr
            obtain rfl := Option.some.inj hr
            obtain ⟨h1, -⟩ := mkDate?_elim hx
            subst h1
            dsimp only
            omega
        | none =>
            rw [hx] at hr
            obtain ⟨h1, -⟩ := mkDate?_elim hr
            subst h1
            dsimp only
            omega
      · rw [if_neg hq, if_neg hq] at hr
        cases hx : mkDate? y (m + 3) dd with
        | some d2 =>
            rw [hx] at hr
            obtain rfl := Option.some.inj hr
            obtain ⟨h1, -⟩ := mkDate?_elim hx
            subst h1
            dsimp only
            omega
        | none =>
            rw [hx] at hr
            obtain ⟨h1, -⟩ := mkDate?_elim hr
            subst h1
            dsimp only
            omega
  | yearly =>
      simp only [calculateNextExpected] at hr
      cases hx : mkDate? (y + 1) m dd with
      | some d2 =>
          rw [hx] at hr
          obtain rfl := Option.some.inj hr
          obtain ⟨h1, -⟩ := mkDate?_elim hx
          subst h1
          dsimp only
          omega
      | none =>
          rw [hx] at hr
          obtain ⟨h1, -⟩ := mkDate?_elim hr
          subst h1
          dsimp only
          omega

theorem pyDate?_eq {y : Int} (h1 : 1 ≤ y) (h2 : y ≤ 9999) (m dd : Nat) :
    pyDate? y m dd = mkDate? y m dd := by
  unfold pyDate?
  rw [if_pos ⟨h1, h2⟩]

/-- Below year 9999, the bounded evaluator agrees with the idealized
one: no library bound can trip. -/
theorem calculateNextExpectedPy_eq (d : Date) (fr : FreqArg)
    (h1 : 1 ≤ d.year) (h2 : d.year ≤ 9998) :
    calculateNextExpectedPy d fr = calculateNextExpected d fr := by
  obtain ⟨y, m, dd⟩ := d
  dsimp only at h1 h2
  cases fr with
  | weekly =>
      show pyAddDays ⟨y, m, dd⟩ 7 = some (addDays ⟨y, m, dd⟩ 7)
      unfold pyAddDays
      rcases addDays_year_inv 7 ⟨y, m, dd⟩ (by omega) with h | ⟨h, -, -⟩ <;>
        (dsimp only at h; rw [if_pos (by omega)])
  | biweekly =>
      show pyAddDays ⟨y, m, dd⟩ 14 = some (addDays ⟨y, m, dd⟩ 14)
      unfold pyAddDays
      rcases addDays_year_inv 14 ⟨y, m, dd⟩ (by omega) with h | ⟨h, -, -⟩ <;>
        (dsimp only at h; rw [if_pos (by omega)])
  | other =>
      show pyAddDays ⟨y, m, dd⟩ 30 = some (addDays ⟨y, m, dd⟩ 30)
      unfold pyAddDays
      rcases addDays_year_inv 30 ⟨y, m, dd⟩ (by omega) with h | ⟨h, -, -⟩ <;>
        (dsimp only at h; rw [if_pos (by omega)])
  | monthly =>
      simp only [calculateNextExpectedPy, calculateNextExpected]
      by_cases hm : m = 12
      · subst hm
        rw [if_pos (by simp), if_pos (by simp)]
        exact pyDate?_eq (by omega) (by omega) 1 dd
      · rw [if_neg (by simp [hm]), if_neg (by simp [hm])]
        rw [pyDate?_eq (by omega) (by omega) (m + 1) dd,
          pyDate?_eq (by omega) (by omega) (m + 1) 28]
  | quarterly =>
      simp only [calculateNextExpectedPy, calculateNextExpected]
      by_cases hq : m + 3 > 12
      · rw [if_pos hq, if_pos hq]
        rw [pyDate?_eq (by omega) (by omega) (m + 3 - 12) dd,
          pyDate?_eq (by omega) (by omega) (m + 3 - 12) 28]
      · rw [if_neg hq, if_neg hq]
        rw [pyDate?_eq (by omega) (by omega) (m + 3) dd,
          pyDate?_eq (by omega) (by omega) (m + 3) 28]
  | yearly =>
      simp only [calculateNextExpectedPy, calculateNextExpected]
      rw [pyDate?_eq (by omega) (by omega) m dd,
        pyDate?_eq (by omega) (by omega) m 28]

/-- Counterexample to C10 as stated: `datetime.date` stops at year 9999,
so the function is not total on valid dates — monthly from 9999-12-15
executes `date(10000, 1, 15)` outside any `try` and raises `ValueError`;
quarterly from 9999-11-30 raises even inside the day-28 fallback
(`date(10000, 2, 28)`); weekly from 9999-12-31 and yearly from 9999-06-15
go past `date.max`. -/
theorem calculateNextExpected_year_bound_raises :
    (pyValidDate ⟨9999, 12, 15⟩ = true ∧
      calculateNextExpectedPy ⟨9999, 12, 15⟩ .monthly = none) ∧
    (pyValidDate ⟨9999, 11, 30⟩ = true ∧
      calculateNextExpectedPy ⟨9999, 11, 30⟩ .quarterly = none) ∧
    (pyValidDate ⟨9999, 12, 31⟩ = true ∧
      calculateNextExpectedPy ⟨9999, 12, 31⟩ .weekly = none) ∧
    (pyValidDate ⟨9999, 6, 15⟩ = true ∧
      calculateNextExpectedPy ⟨9999, 6, 15⟩ .yearly = none) := by
  exact ⟨⟨by decide, by decide⟩, ⟨by decide, by decide⟩, ⟨by decide, by decide⟩,
    ⟨by decide, by decide⟩⟩

/-- **C10** (amended): `calculate_next_expected` can raise only at
`datetime.date`'s year-9999 library bound: for every valid in-range last
date with year at most 9998 and every frequency it returns, without
raising, a valid in-range date — the very date the year-idealized
projection computes (so the quarterly month arithmetic stays in 1..12
and the day-28 fallbacks never fail for a day-of-month reason). At year
9999 some paths raise, as the counterexample shows. -/
theorem calculateNextExpectedPy_total (d : Date) (fr : FreqArg)
    (hv : pyValidDate d = true) (hy : d.year ≤ 9998) :
    ∃ r, calculateNextExpectedPy d fr = some r ∧
      calculateNextExpected d fr = some r ∧ pyValidDate r = true := by
  have hsplit : validDate d = true ∧ 1 ≤ d.year ∧ d.year ≤ 9999 := by
    unfold pyValidDate at hv
    simp only [Bool.and_eq_true, decide_eq_true_eq] at hv
    exact ⟨hv.1.1, hv.1.2, hv.2⟩
  obtain ⟨hvd, hy1, -⟩ := hsplit
  obtain ⟨r, hsome, hvalid⟩ := calculateNextExpected_total d fr hvd
  have hyb := calculateNextExpected_year_le d fr r hsome
  refine ⟨r, ?_, hsome, ?_⟩
  · rw [calculateNextExpectedPy_eq d fr hy1 hy]
    exact hsome
  · unfold pyValidDate
    simp only [Bool.and_eq_true, decide_eq_true_eq]
    exact ⟨⟨hvalid, by omega⟩, by omega⟩

/-- Witness for C10 at a concrete in-range input (the monthly clamp
path). -/
theorem calculateNextExpectedPy_total_witness :
    ∃ r, calculateNextExpectedPy ⟨2024, 1, 31⟩ .monthly = some r ∧
      calculateNextExpected ⟨2024, 1, 31⟩ .monthly = some r ∧ pyValidDate r = true :=
  calculateNextExpectedPy_total ⟨2024, 1, 31⟩ .monthly (by decide) (by decide)

/-! ### Decimal digit lemmas -/

theorem natDigitsGo_acc : ∀ n f acc, n < f →
    natDigitsGo f n acc = natDigits n ++ acc := by
  intro n
  induction n using Nat.strong_induction_on with
  | _ n ih =>
      intro f acc hf
      cases f with
      | zero => omega
      | succ g =>
          by_cases h10 : n < 10
          · simp [natDigitsGo, natDigits, h10]
          · simp only [natDigitsGo, if_neg h10]
            rw [ih (n / 10) (by omega) g _ (by omega)]
            have hrhs : natDigits n = natDigits (n / 10) ++ [digitChar (n % 10)] := by
              show natDigitsGo (n + 1) n [] = _
              simp only [natDigitsGo, if_neg h10]
              exact ih (n / 10) (by omega) n _ (by omega)
            rw [hrhs, List.append_assoc]
            rfl

theorem natDigits_eq (n : Nat) :
    natDigits n = if n < 10 then [digitChar n]
      else natDigits (n / 10) ++ [digitChar (n % 10)] := by
  by_cases h : n < 10
  · simp [natDigits, natDigitsGo, h]
  · rw [if_neg h]
    show natDigitsGo (n + 1) n [] = _
    simp only [natDigitsGo, if_neg h]
    exact natDigitsGo_acc (n / 10) n _ (by omega)

theorem digitVal_digitChar {n : Nat} (h : n < 10) : digitVal (digitChar n) = n := by
  interval_cases n <;> decide

theorem isDigitCh_digitChar {n : Nat} (h : n < 10) : isDigitCh (digitChar n) = true := by
  interval_cases n <;> decide

theorem fromDigits_natDigits : ∀ n, fromDigits (natDigits n) = n := by
  intro n
  induction n using Nat.strong_induction_on with
  | _ n ih =>
      rw [natDigits_eq]
      by_cases h : n < 10
      · simp [if_pos h, fromDigits, digitVal_digitChar h]
      · rw [if_neg h]
        unfold fromDigits
        rw [List.foldl_append]
        have ih10 := ih (n / 10) (by omega)
        unfold fromDigits at ih10
        rw [ih10]
        simp [digitVal_digitChar (show n % 10 < 10 by omega)]
        omega

theorem foldl_digits_replicate_zero : ∀ z : Nat,
    List.foldl (fun acc c => acc * 10 + digitVal c) 0 (List.replicate z '0') = 0 := by
  intro z
  induction z with
  | zero => rfl
  | succ k ih =>
      rw [List.replicate_succ]
      show List.foldl _ (0 * 10 + digitVal '0') _ = 0
      have : 0 * 10 + digitVal '0' = 0 := by decide
      rw [this]
      exact ih

theorem fromDigits_padZero (w n : Nat) : fromDigits (padZero w n) = n := by
  unfold padZero fromDigits
  rw [List.foldl_append]
  have h0 := foldl_digits_replicate_zero (w - (natDigits n).length)
  rw [h0]
  exact fromDigits_natDigits n

theorem padZero_inj {w m n : Nat} (h : padZero w m = padZero w n) : m = n := by
  have := congrArg fromDigits h
  rwa [fromDigits_padZero, fromDigits_padZero] at this

theorem tokenFor_inj {t : TokenType} {m n : Nat} (h : tokenFor t m = tokenFor t n) :
    m = n := by
  cases t <;>
    (unfold tokenFor at h; exact padZero_inj (List.append_cancel_left h))

theorem natDigits_ne_nil (n : Nat) : natDigits n ≠ [] := by
  rw [natDigits_eq]
  by_cases h : n < 10
  · simp [h]
  · simp [h]

theorem padZero_length (w n : Nat) :
    (padZero w n).length = max w (natDigits n).length := by
  unfold padZero
  rw [List.length_append, List.length_replicate]
  omega

theorem natDigits_len_le : ∀ k n, 1 ≤ k → n < 10 ^ k → (natDigits n).length ≤ k := by
  intro k
  induction k with
  | zero => omega
  | succ j ih =>
      intro n _ hn
      rw [natDigits_eq]
      by_cases h : n < 10
      · simp [h]
      · rw [if_neg h, List.length_append]
        have hj : 1 ≤ j := by
          rcases Nat.eq_zero_or_pos j with hz | hp
          · subst hz
            simp [pow_succ, pow_zero] at hn
            omega
          · exact hp
        have hdiv : n / 10 < 10 ^ j := by
          rw [Nat.div_lt_iff_lt_mul (by omega)]
          calc n < 10 ^ (j + 1) := hn
            _ = 10 ^ j * 10 := by rw [pow_succ]
        have := ih (n / 10) hj hdiv
        simp
        omega

theorem natDigits_len_ge : ∀ k n, 10 ^ k ≤ n → k + 1 ≤ (natDigits n).length := by
  intro k
  induction k with
  | zero =>
      intro n _
      have := natDigits_ne_nil n
      cases hh : natDigits n with
      | nil => exact absurd hh this
      | cons a l => simp
  | succ j ih =>
      intro n hn
      rw [natDigits_eq]
      have h10 : ¬ n < 10 := by
        intro hlt
        have : 10 ^ (j + 1) ≥ 10 := by
          calc 10 ^ (j + 1) = 10 ^ j * 10 := by rw [pow_succ]
            _ ≥ 1 * 10 := by
                have : 1 ≤ 10 ^ j := Nat.one_le_pow _ _ (by omega)
                omega
        omega
      rw [if_neg h10, List.length_append]
      have hdiv : 10 ^ j ≤ n / 10 := by
        rw [Nat.le_div_iff_mul_le (by omega)]
        calc 10 ^ j * 10 = 10 ^ (j + 1) := by rw [pow_succ]
          _ ≤ n := hn
      have := ih (n / 10) hdiv
      simp
      omega

theorem natDigits_all_digits : ∀ n, (natDigits n).all isDigitCh = true := by
  intro n
  induction n using Nat.strong_induction_on with
  | _ n ih =>
      rw [natDigits_eq]
      by_cases h : n < 10
      · simp [h, isDigitCh_digitChar h]
      · rw [if_neg h]
        rw [List.all_append]
        rw [ih (n / 10) (by omega)]
        simp [isDigitCh_digitChar (show n % 10 < 10 by omega)]

theorem padZero_all_digits (w n : Nat) : (padZero w n).all isDigitCh = true := by
  unfold padZero
  rw [List.all_append, natDigits_all_digits]
  rw [Bool.and_true]
  induction (w - (natDigits n).length) with
  | zero => rfl
  | succ k ih =>
      rw [List.replicate_succ, List.all_cons, ih]
      decide

/-! ### Date shifting (C1) -/

theorem addDaysInt_cancel {d : Date} (k : Int) (h : validDate d = true) :
    addDaysInt (addDaysInt d k) (-k) = d := by
  by_cases hk : 0 ≤ k
  · by_cases hz : k = 0
    · subst hz
      simp [addDaysInt, addDays, subDays]
    · have hneg : ¬ 0 ≤ -k := by omega
      unfold addDaysInt
      rw [if_pos hk, if_neg hneg, neg_neg]
      exact subDays_addDays k.toNat h
  · have hpos : 0 ≤ -k := by omega
    unfold addDaysInt
    rw [if_neg hk, if_pos hpos]
    exact addDays_subDays (-k).toNat h

theorem getDateShift_fixed {s : TokState} {v : Int} (hf : FixedInstall s v) (r : Int) :
    getDateShift s r = (v, { s with memShift := some v }) := by
  obtain ⟨recs, ca, rc, ms, db⟩ := s
  obtain ⟨hdb, hm⟩ := hf
  dsimp only at hdb hm
  subst hdb
  rcases hm with hm | hm <;> subst hm <;> rfl

/-- **C1**: for a fixed installation (one persisted `shift_days` value `v`,
with the in-memory copy absent or agreeing), `unshift_date (shift_date d)`
returns `d` for every valid date, and a repeated `shift_date` call returns
the same shifted date whatever value the random generator would offer. -/
theorem shiftDate_unshiftDate_inverse (s : TokState) (v : Int) (d : Date)
    (r1 r2 r3 : Int) (hf : FixedInstall s v) (hd : validDate d = true) :
    (unshiftDate (shiftDate s r1 d).2 r2 (shiftDate s r1 d).1).1 = d ∧
    (shiftDate (shiftDate s r1 d).2 r3 d).1 = (shiftDate s r1 d).1 := by
  have h1 : shiftDate s r1 d = (addDaysInt d v, { s with memShift := some v }) := by
    unfold shiftDate
    rw [getDateShift_fixed hf]
  have hf2 : FixedInstall { s with memShift := some v } v := ⟨hf.1, Or.inr rfl⟩
  rw [h1]
  constructor
  · show (unshiftDate { s with memShift := some v } r2 (addDaysInt d v)).1 = d
    unfold unshiftDate
    rw [getDateShift_fixed hf2]
    exact addDaysInt_cancel v hd
  · show (shiftDate { s with memShift := some v } r3 d).1 = addDaysInt d v
    unfold shiftDate
    rw [getDateShift_fixed hf2]

/-- Witness for C1 at a concrete installation and date. -/
theorem shiftDate_unshiftDate_inverse_witness :
    (unshiftDate (shiftDate ⟨[], [], [], none, some 500⟩ 0 ⟨2024, 1, 15⟩).2 0
        (shiftDate ⟨[], [], [], none, some 500⟩ 0 ⟨2024, 1, 15⟩).1).1 = ⟨2024, 1, 15⟩ ∧
    (shiftDate (shiftDate ⟨[], [], [], none, some 500⟩ 0 ⟨2024, 1, 15⟩).2 0 ⟨2024, 1, 15⟩).1 =
      (shiftDate ⟨[], [], [], none, some 500⟩ 0 ⟨2024, 1, 15⟩).1 :=
  shiftDate_unshiftDate_inverse ⟨[], [], [], none, some 500⟩ 500 ⟨2024, 1, 15⟩ 0 0 0
    ⟨rfl, Or.inl rfl⟩ (by decide)

/-! ### Token store lemmas -/

theorem alookup_cons_self {α β : Type} [DecidableEq α] (k : α) (v : β) (l : List (α × β)) :
    alookup ((k, v) :: l) k = some v := by
  unfold alookup
  rw [if_pos rfl]

theorem alookup_none {α β : Type} [DecidableEq α] :
    ∀ (l : List (α × β)) (k : α), (∀ kv ∈ l, kv.1 ≠ k) → alookup l k = none := by
  intro l
  induction l with
  | nil => intro k _; rfl
  | cons kv rest ih =>
      intro k h
      obtain ⟨k1, v1⟩ := kv
      unfold alookup
      rw [if_neg (fun he => (h (k1, v1) (List.mem_cons_self _ _)) he.symm)]
      exact ih k (fun kv2 hm => h kv2 (List.mem_cons_of_mem _ hm))

theorem alookup_some {α β : Type} [DecidableEq α] :
    ∀ (l : List (α × β)) (k : α) (v : β), alookup l k = some v → (k, v) ∈ l := by
  intro l
  induction l with
  | nil => intro k v h; exact absurd h (by simp [alookup])
  | cons kv rest ih =>
      intro k v h
      obtain ⟨k1, v1⟩ := kv
      unfold alookup at h
      split_ifs at h with hc
      · obtain rfl := hc
        obtain rfl := Option.some.inj h
        exact List.mem_cons_self _ _
      · exact List.mem_cons_of_mem _ (ih k v h)

theorem findRec_none :
    ∀ (l : List TokenRec) (t : TokenType) (nv : List Char),
      (∀ r ∈ l, ¬(r.tokenType = t ∧ r.normalizedValue = nv)) → findRec l t nv = none := by
  intro l
  induction l with
  | nil => intro t nv _; rfl
  | cons r rest ih =>
      intro t nv h
      unfold findRec
      rw [if_neg (h r (List.mem_cons_self _ _))]
      exact ih t nv (fun r2 hm => h r2 (List.mem_cons_of_mem _ hm))

theorem findRec_none_forall :
    ∀ (l : List TokenRec) (t : TokenType) (nv : List Char),
      findRec l t nv = none → ∀ r ∈ l, ¬(r.tokenType = t ∧ r.normalizedValue = nv) := by
  intro l
  induction l with
  | nil => intro t nv _ r hr; exact absurd hr (by simp)
  | cons r0 rest ih =>
      intro t nv h r hr
      unfold findRec at h
      split_ifs at h with hc
      rcases List.mem_cons.mp hr with rfl | hmem
      · exact hc
      · exact ih t nv h r hmem

theorem findRec_some :
    ∀ (l : List TokenRec) (t : TokenType) (nv : List Char) (r : TokenRec),
      findRec l t nv = some r → r ∈ l ∧ r.tokenType = t ∧ r.normalizedValue = nv := by
  intro l
  induction l with
  | nil => intro t nv r h; exact absurd h (by simp [findRec])
  | cons r0 rest ih =>
      intro t nv r h
      unfold findRec at h
      split_ifs at h with hc
      · obtain rfl := Option.some.inj h
        exact ⟨List.mem_cons_self _ _, hc.1, hc.2⟩
      · obtain ⟨hm, ht, hn⟩ := ih t nv r h
        exact ⟨List.mem_cons_of_mem _ hm, ht, hn⟩

theorem tokenizeValue_cache_hit {s : TokState} {t : TokenType} {v tok : List Char}
    (hc : alookup s.cache (t, normalizeL v) = some tok) :
    tokenizeValue s t v = (tok, s) := by
  simp only [tokenizeValue]
  rw [hc]

theorem tokenizeValue_db_hit {s : TokState} {t : TokenType} {v : List Char} {ex : TokenRec}
    (hc : alookup s.cache (t, normalizeL v) = none)
    (hf : findRec s.records t (normalizeL v) = some ex) :
    tokenizeValue s t v = (ex.token,
      { s with
        cache := ((t, normalizeL v), ex.token) :: s.cache,
        reverseCache := (ex.token, ex.originalValue) :: s.reverseCache }) := by
  simp only [tokenizeValue]
  rw [hc, hf]

theorem tokenizeValue_create {s : TokState} {t : TokenType} {v : List Char}
    (hc : alookup s.cache (t, normalizeL v) = none)
    (hf : findRec s.records t (normalizeL v) = none) :
    tokenizeValue s t v = (tokenFor t (countType s.records t + 1),
      { s with
        records := s.records ++
          [⟨t, v, normalizeL v, tokenFor t (countType s.records t + 1)⟩],
        cache := ((t, normalizeL v), tokenFor t (countType s.records t + 1)) :: s.cache,
        reverseCache := (tokenFor t (countType s.records t + 1), v) :: s.reverseCache }) := by
  simp only [tokenizeValue]
  rw [hc, hf]

theorem tokenizeValue_repeat (s : TokState) (t : TokenType) (n1 n2 : List Char)
    (hn : normalizeL n1 = normalizeL n2) :
    tokenizeValue (tokenizeValue s t n1).2 t n2 =
      ((tokenizeValue s t n1).1, (tokenizeValue s t n1).2) := by
  cases hc : alookup s.cache (t, normalizeL n1) with
  | some tok =>
      rw [tokenizeValue_cache_hit hc]
      exact tokenizeValue_cache_hit (by rw [← hn]; exact hc)
  | none =>
      cases hf : findRec s.records t (normalizeL n1) with
      | some ex =>
          rw [tokenizeValue_db_hit hc hf]
          exact tokenizeValue_cache_hit (by rw [← hn]; exact alookup_cons_self _ _ _)
      | none =>
          rw [tokenizeValue_create hc hf]
          exact tokenizeValue_cache_hit (by rw [← hn]; exact alookup_cons_self _ _ _)

theorem tokenizeValue_records_mono (s : TokState) (t : TokenType) (v : List Char) :
    ∃ tail, (tokenizeValue s t v).2.records = s.records ++ tail := by
  cases hc : alookup s.cache (t, normalizeL v) with
  | some tok => exact ⟨[], by rw [tokenizeValue_cache_hit hc]; simp⟩
  | none =>
      cases hf : findRec s.records t (normalizeL v) with
      | some ex => exact ⟨[], by rw [tokenizeValue_db_hit hc hf]; simp⟩
      | none =>
          exact ⟨[⟨t, v, normalizeL v, tokenFor t (countType s.records t + 1)⟩],
            by rw [tokenizeValue_create hc hf]⟩

/-! ### Well-formedness lemmas -/

theorem wfState_iff {s : TokState} :
    wfState s = true ↔
      wfNumbering s .merchant = true ∧ wfNumbering s .account = true ∧
        wfNumbering s .person = true ∧ keysUnique s.records = true ∧ wfCache s = true := by
  unfold wfState
  simp only [Bool.and_eq_true]
  tauto

theorem wfNumbering_iff {s : TokState} {t : TokenType} :
    wfNumbering s t = true ↔ numberingOk s.records t := by
  unfold wfNumbering numberingOk
  exact decide_eq_true_iff

theorem countType_append (l1 l2 : List TokenRec) (t : TokenType) :
    countType (l1 ++ l2) t = countType l1 t + countType l2 t := by
  unfold countType
  rw [List.filter_append, List.length_append]

theorem numberingOk_append_same {records : List TokenRec} {t : TokenType}
    (h : numberingOk records t) (vorig nv : List Char) :
    numberingOk (records ++ [⟨t, vorig, nv, tokenFor t (countType records t + 1)⟩]) t := by
  unfold numberingOk at h ⊢
  rw [List.filter_append, List.map_append, countType_append]
  have c1 : countType [(⟨t, vorig, nv, tokenFor t (countType records t + 1)⟩ : TokenRec)] t = 1 := by
    simp [countType]
  rw [c1, List.range_succ, List.map_append]
  congr 1
  simp

theorem numberingOk_append_other {records : List TokenRec} {t t' : TokenType}
    (hne : ¬ t = t') (h : numberingOk records t') (vorig nv tok : List Char) :
    numberingOk (records ++ [⟨t, vorig, nv, tok⟩]) t' := by
  unfold numberingOk at h ⊢
  rw [List.filter_append, countType_append]
  have c0 : countType [(⟨t, vorig, nv, tok⟩ : TokenRec)] t' = 0 := by
    simp [countType, hne]
  have f0 : List.filter (fun r => decide (r.tokenType = t'))
      [(⟨t, vorig, nv, tok⟩ : TokenRec)] = [] := by
    simp [hne]
  rw [c0, f0, List.append_nil, Nat.add_zero]
  exact h

theorem keysUnique_append_one :
    ∀ (l : List TokenRec) (nr : TokenRec), keysUnique l = true →
      (∀ r ∈ l, ¬(nr.tokenType = r.tokenType ∧ nr.normalizedValue = r.normalizedValue)) →
      keysUnique (l ++ [nr]) = true := by
  intro l
  induction l with
  | nil =>
      intro nr _ _
      simp [keysUnique]
  | cons r rest ih =>
      intro nr hk hfresh
      rw [List.cons_append]
      unfold keysUnique at hk ⊢
      rw [Bool.and_eq_true] at hk
      obtain ⟨hall, hrest⟩ := hk
      rw [Bool.and_eq_true]
      constructor
      · rw [List.all_append, Bool.and_eq_true]
        refine ⟨hall, ?_⟩
        simp only [List.all_cons, List.all_nil, Bool.and_true]
        rw [Bool.not_eq_true', decide_eq_false_iff_not]
        exact hfresh r (List.mem_cons_self _ _)
      · exact ih nr hrest (fun r2 hm => hfresh r2 (List.mem_cons_of_mem _ hm))

theorem wf_token_unique {s : TokState} (h : wfState s = true) {r1 r2 : TokenRec}
    (h1 : r1 ∈ s.records) (h2 : r2 ∈ s.records) (ht : r1.tokenType = r2.tokenType)
    (htok : r1.token = r2.token) : r1 = r2 := by
  obtain ⟨hm, ha, hp, _, _⟩ := wfState_iff.mp h
  have hnum : numberingOk s.records r2.tokenType := by
    cases r2.tokenType
    · exact wfNumbering_iff.mp hm
    · exact wfNumbering_iff.mp ha
    · exact wfNumbering_iff.mp hp
  have hnodup : ((s.records.filter (fun r => decide (r.tokenType = r2.tokenType))).map
      (fun r => r.token)).Nodup := by
    rw [hnum]
    exact (List.nodup_range _).map (fun a b hab => by
      have := tokenFor_inj hab
      omega)
  have hm1 : r1 ∈ s.records.filter (fun r => decide (r.tokenType = r2.tokenType)) := by
    rw [List.mem_filter]
    exact ⟨h1, by simp [ht]⟩
  have hm2 : r2 ∈ s.records.filter (fun r => decide (r.tokenType = r2.tokenType)) := by
    rw [List.mem_filter]
    exact ⟨h2, by simp⟩
  exact List.inj_on_of_nodup_map hnodup hm1 hm2 htok

theorem tokenizeValue_ret_mem {s : TokState} {t : TokenType} (v : List Char)
    (h : wfState s = true) :
    ∃ r : TokenRec, r ∈ (tokenizeValue s t v).2.records ∧ r.tokenType = t ∧
      r.normalizedValue = normalizeL v ∧ r.token = (tokenizeValue s t v).1 := by
  obtain ⟨_, _, _, _, hcache⟩ := wfState_iff.mp h
  cases hc : alookup s.cache (t, normalizeL v) with
  | some tok =>
      rw [tokenizeValue_cache_hit hc]
      have hmem := alookup_some _ _ _ hc
      unfold wfCache at hcache
      rw [List.all_eq_true] at hcache
      have hany := hcache _ hmem
      rw [List.any_eq_true] at hany
      obtain ⟨r, hr, hprop⟩ := hany
      simp only [decide_eq_true_eq] at hprop
      obtain ⟨hp1, hp2, hp3⟩ := hprop
      exact ⟨r, hr, hp1, hp2, hp3⟩
  | none =>
      cases hf : findRec s.records t (normalizeL v) with
      | some ex =>
          rw [tokenizeValue_db_hit hc hf]
          obtain ⟨hm, ht', hn'⟩ := findRec_some _ _ _ _ hf
          exact ⟨ex, hm, ht', hn', rfl⟩
      | none =>
          rw [tokenizeValue_create hc hf]
          refine ⟨⟨t, v, normalizeL v, tokenFor t (countType s.records t + 1)⟩, ?_, rfl, rfl, rfl⟩
          simp

theorem tokenizeValue_wf {s : TokState} {t : TokenType} (v : List Char)
    (h : wfState s = true) : wfState (tokenizeValue s t v).2 = true := by
  obtain ⟨hm, ha, hp, hk, hc0⟩ := wfState_iff.mp h
  cases hc : alookup s.cache (t, normalizeL v) with
  | some tok =>
      rw [tokenizeValue_cache_hit hc]
      exact h
  | none =>
      cases hf : findRec s.records t (normalizeL v) with
      | some ex =>
          rw [tokenizeValue_db_hit hc hf]
          rw [wfState_iff]
          obtain ⟨hmem, ht', hn'⟩ := findRec_some _ _ _ _ hf
          refine ⟨hm, ha, hp, hk, ?_⟩
          unfold wfCache
          rw [List.all_eq_true]
          intro kv hkv
          rcases List.mem_cons.mp hkv with rfl | hmem2
          · rw [List.any_eq_true]
            refine ⟨ex, hmem, ?_⟩
            simp only [decide_eq_true_eq]
            exact ⟨ht', hn', trivial⟩
          · unfold wfCache at hc0
            rw [List.all_eq_true] at hc0
            exact hc0 kv hmem2
      | none =>
          rw [tokenizeValue_create hc hf]
          rw [wfState_iff]
          have hfresh := findRec_none_forall _ _ _ hf
          refine ⟨?_, ?_, ?_, ?_, ?_⟩
          · rw [wfNumbering_iff]
            show numberingOk (s.records ++ [_]) .merchant
            by_cases hT : t = .merchant
            · subst hT
              exact numberingOk_append_same (wfNumbering_iff.mp hm) _ _
            · exact numberingOk_append_other hT (wfNumbering_iff.mp hm) _ _ _
          · rw [wfNumbering_iff]
            show numberingOk (s.records ++ [_]) .account
            by_cases hT : t = .account
            · subst hT
              exact numberingOk_append_same (wfNumbering_iff.mp ha) _ _
            · exact numberingOk_append_other hT (wfNumbering_iff.mp ha) _ _ _
          · rw [wfNumbering_iff]
            show numberingOk (s.records ++ [_]) .person
            by_cases hT : t = .person
            · subst hT
              exact numberingOk_append_same (wfNumbering_iff.mp hp) _ _
            · exact numberingOk_append_other hT (wfNumbering_iff.mp hp) _ _ _
          · show keysUnique (s.records ++ [_]) = true
            apply keysUnique_append_one _ _ hk
            intro r hr hcon
            exact hfresh r hr ⟨hcon.1.symm, hcon.2.symm⟩
          · unfold wfCache
            rw [List.all_eq_true]
            intro kv hkv
            rcases List.mem_cons.mp hkv with rfl | hmem2
            · rw [List.any_eq_true]
              refine ⟨⟨t, v, normalizeL v, tokenFor t (countType s.records t + 1)⟩, ?_, ?_⟩
              · simp
              · simp
            · unfold wfCache at hc0
              rw [List.all_eq_true] at hc0
              have := hc0 kv hmem2
              rw [List.any_eq_true] at this ⊢
              obtain ⟨r, hr, hpr⟩ := this
              exact ⟨r, List.mem_append_left _ hr, hpr⟩

/-- **C3**: `tokenize_merchant` is idempotent modulo normalization: a
repeated call whose name has the same trimmed uppercased form returns the
same token and leaves the whole store (hence the stored `original_value`)
unchanged; calls never modify existing rows (they only append); and on a
well-formed store, names with different normalized forms get different
tokens. -/
theorem tokenizeMerchant_idempotent :
    (∀ s n1 n2, normalizeL n1 = normalizeL n2 →
      tokenizeMerchant (tokenizeMerchant s n1).2 n2 =
        ((tokenizeMerchant s n1).1, (tokenizeMerchant s n1).2)) ∧
    (∀ s n, ∃ tail, (tokenizeMerchant s n).2.records = s.records ++ tail) ∧
    (∀ s n1 n2, wfState s = true → normalizeL n1 ≠ normalizeL n2 →
      (tokenizeMerchant (tokenizeMerchant s n1).2 n2).1 ≠ (tokenizeMerchant s n1).1) := by
  refine ⟨fun s n1 n2 hn => tokenizeValue_repeat s .merchant n1 n2 hn,
    fun s n => tokenizeValue_records_mono s .merchant n, ?_⟩
  intro s n1 n2 hwf hn heq
  have hw1 : wfState (tokenizeValue s .merchant n1).2 = true := tokenizeValue_wf n1 hwf
  obtain ⟨r1, hr1m, hr1t, hr1n, hr1tok⟩ :=
    tokenizeValue_ret_mem (s := s) (t := .merchant) n1 hwf
  obtain ⟨r2, hr2m, hr2t, hr2n, hr2tok⟩ :=
    tokenizeValue_ret_mem (s := (tokenizeValue s .merchant n1).2) (t := .merchant) n2 hw1
  obtain ⟨tail2, htail2⟩ :=
    tokenizeValue_records_mono (tokenizeValue s .merchant n1).2 .merchant n2
  have hr1m2 : r1 ∈ (tokenizeValue (tokenizeValue s .merchant n1).2 .merchant n2).2.records := by
    rw [htail2]
    exact List.mem_append_left _ hr1m
  have hw2 := tokenizeValue_wf (s := (tokenizeValue s .merchant n1).2) (t := .merchant) n2 hw1
  have hre : r1 = r2 := by
    apply wf_token_unique hw2 hr1m2 hr2m (by rw [hr1t, hr2t])
    rw [hr1tok, hr2tok]
    exact heq.symm
  apply hn
  rw [← hr1n, ← hr2n, hre]

/-- Witness for C3 at concrete names. -/
theorem tokenizeMerchant_idempotent_witness :
    tokenizeMerchant (tokenizeMerchant emptyState "Whole Foods".data).2 "WHOLE FOODS".data =
      ((tokenizeMerchant emptyState "Whole Foods".data).1,
        (tokenizeMerchant emptyState "Whole Foods".data).2) ∧
    (tokenizeMerchant (tokenizeMerchant emptyState "Whole Foods".data).2 "Trader Joes".data).1 ≠
      (tokenizeMerchant emptyState "Whole Foods".data).1 :=
  ⟨tokenizeMerchant_idempotent.1 emptyState "Whole Foods".data "WHOLE FOODS".data (by decide),
    tokenizeMerchant_idempotent.2.2 emptyState "Whole Foods".data "Trader Joes".data
      (by decide) (by decide)⟩

/-! ### Merchant token numbering (C5) -/

theorem wf_cache_miss {s : TokState} {t : TokenType} {nv : List Char}
    (h : wfCache s = true) (hf : findRec s.records t nv = none) :
    alookup s.cache (t, nv) = none := by
  apply alookup_none
  intro kv hkv hkey
  unfold wfCache at h
  rw [List.all_eq_true] at h
  have hany := h kv hkv
  rw [List.any_eq_true] at hany
  obtain ⟨r, hr, hprop⟩ := hany
  simp only [decide_eq_true_eq] at hprop
  obtain ⟨hp1, hp2, _⟩ := hprop
  exact findRec_none_forall _ _ _ hf r hr ⟨by rw [hp1, hkey], by rw [hp2, hkey]⟩

/-- **C5** (amended): on a well-formed store, tokenizing a fresh merchant
name mints the token `MERCHANT_` + `f"{count+1:04d}"`: the sequence number
is the count of existing merchant rows plus one (so numbers start at 1,
grow strictly with creation order, and are never reused — the new token
differs from every existing merchant token), well-formedness is preserved,
and the digit block consists only of digits, is at least 4 long, and is
exactly 4 long iff the sequence number is at most 9999 (beyond that,
Python's `04d` padding emits more digits, so the advertised
`MERCHANT_\d{4}` shape is only guaranteed below 10000 merchants). -/
theorem tokenizeMerchant_numbering (s : TokState) (name : List Char)
    (hwf : wfState s = true)
    (hfresh : findRec s.records .merchant (normalizeL name) = none) :
    (tokenizeMerchant s name).1 = mercPre ++ padZero 4 (countType s.records .merchant + 1) ∧
    wfState (tokenizeMerchant s name).2 = true ∧
    countType (tokenizeMerchant s name).2.records .merchant =
      countType s.records .merchant + 1 ∧
    (∀ r ∈ s.records, r.tokenType = .merchant →
      r.token ≠ (tokenizeMerchant s name).1) ∧
    4 ≤ (padZero 4 (countType s.records .merchant + 1)).length ∧
    (padZero 4 (countType s.records .merchant + 1)).all isDigitCh = true ∧
    ((padZero 4 (countType s.records .merchant + 1)).length = 4 ↔
      countType s.records .merchant + 1 ≤ 9999) := by
  obtain ⟨hm, _, _, _, hc0⟩ := wfState_iff.mp hwf
  have hc : alookup s.cache (.merchant, normalizeL name) = none := wf_cache_miss hc0 hfresh
  have hcreate := tokenizeValue_create hc hfresh
  refine ⟨?_, tokenizeValue_wf name hwf, ?_, ?_, ?_, padZero_all_digits _ _, ?_⟩
  · show (tokenizeValue s .merchant name).1 = _
    rw [hcreate]
    rfl
  · show countType (tokenizeValue s .merchant name).2.records .merchant = _
    rw [hcreate]
    dsimp only
    rw [countType_append]
    simp [countType]
  · intro r hr hrt
    show r.token ≠ (tokenizeValue s .merchant name).1
    rw [hcreate]
    dsimp only
    have hnum := wfNumbering_iff.mp hm
    unfold numberingOk at hnum
    have hmemtok : r.token ∈
        (s.records.filter (fun rr => decide (rr.tokenType = .merchant))).map
          (fun rr => rr.token) := by
      apply List.mem_map_of_mem
      rw [List.mem_filter]
      exact ⟨hr, by simp [hrt]⟩
    rw [hnum, List.mem_map] at hmemtok
    obtain ⟨i, hi, htok⟩ := hmemtok
    rw [List.mem_range] at hi
    intro hfalse
    rw [← htok] at hfalse
    have := tokenFor_inj hfalse
    omega
  · rw [padZero_length]
    omega
  · rw [padZero_length]
    constructor
    · intro hlen
      by_contra hgt
      have h4 : 10 ^ 4 ≤ countType s.records .merchant + 1 := by
        norm_num
        omega
      have := natDigits_len_ge 4 _ h4
      omega
    · intro hle
      have hlt : countType s.records .merchant + 1 < 10 ^ 4 := by
        norm_num
        omega
      have hlen := natDigits_len_le 4 _ (by omega) hlt
      omega

/-- Witness for C5 at a concrete fresh name on the empty store. -/
theorem tokenizeMerchant_numbering_witness :
    (tokenizeMerchant emptyState "Whole Foods".data).1 =
      mercPre ++ padZero 4 (countType emptyState.records .merchant + 1) :=
  (tokenizeMerchant_numbering emptyState "Whole Foods".data (by decide) (by decide)).1

theorem dropWhile_rep (k : Nat) :
    List.dropWhile isSpaceCh (List.replicate k 'X') = List.replicate k 'X' := by
  cases k with
  | zero => rfl
  | succ j =>
      rw [List.replicate_succ, List.dropWhile_cons]
      rw [if_neg (by decide)]

theorem stripL_rep (k : Nat) : stripL (rep k) = rep k := by
  unfold stripL rep
  rw [dropWhile_rep, List.reverse_replicate, dropWhile_rep, List.reverse_replicate]

theorem normalizeL_rep (k : Nat) : normalizeL (rep k) = rep k := by
  unfold normalizeL
  rw [stripL_rep]
  unfold upperL rep
  rw [List.map_replicate]
  rw [show toUpperCh 'X' = 'X' from by decide]

theorem seqState_count (k : Nat) : countType (seqState k).records .merchant = k := by
  unfold countType seqState
  dsimp only
  rw [List.filter_eq_self.mpr ?_]
  · simp
  · intro a ha
    simp only [List.mem_map, List.mem_range] at ha
    obtain ⟨i, _, rfl⟩ := ha
    simp

theorem seqState_step (k : Nat) :
    tokenizeMerchant (seqState k) (rep (k + 1)) =
      (tokenFor .merchant (k + 1), seqState (k + 1)) := by
  have hnorm := normalizeL_rep (k + 1)
  have hf : findRec (seqState k).records .merchant (normalizeL (rep (k + 1))) = none := by
    rw [hnorm]
    apply findRec_none
    intro r hr
    simp only [seqState, List.mem_map, List.mem_range] at hr
    obtain ⟨i, hi, rfl⟩ := hr
    rintro ⟨-, hnv⟩
    have hlen := congrArg List.length hnv
    simp only [rep, List.length_replicate] at hlen
    omega
  have hc : alookup (seqState k).cache (TokenType.merchant, normalizeL (rep (k + 1))) = none := by
    rw [hnorm]
    apply alookup_none
    intro kv hkv
    simp only [seqState, List.mem_reverse, List.mem_map, List.mem_range] at hkv
    obtain ⟨i, hi, rfl⟩ := hkv
    dsimp only
    intro hkey
    have hnv : rep (i + 1) = rep (k + 1) := congrArg Prod.snd hkey
    have hlen := congrArg List.length hnv
    simp only [rep, List.length_replicate] at hlen
    omega
  show tokenizeValue (seqState k) .merchant (rep (k + 1)) = _
  rw [tokenizeValue_create hc hf]
  rw [seqState_count, hnorm]
  refine congrArg (Prod.mk _) ?_
  apply TokState.ext
  · show (seqState k).records ++ [_] = (seqState (k + 1)).records
    simp [seqState, List.range_succ]
  · show _ :: (seqState k).cache = (seqState (k + 1)).cache
    simp [seqState, List.range_succ]
  · show _ :: (seqState k).reverseCache = (seqState (k + 1)).reverseCache
    simp [seqState, List.range_succ]
  · rfl
  · rfl

theorem runMerchants_seq : ∀ k : Nat,
    runMerchants ((List.range k).map (fun i => rep (i + 1))) emptyState = seqState k := by
  intro k
  induction k with
  | zero => rfl
  | succ j ih =>
      rw [List.range_succ, List.map_append]
      unfold runMerchants at ih ⊢
      rw [List.foldl_append, ih]
      simp only [List.map_cons, List.map_nil, List.foldl_cons, List.foldl_nil]
      rw [seqState_step j]

/-- Counterexample to C5 as stated: running `tokenize_merchant` on 9999
distinct fresh names and then one more mints `MERCHANT_10000`, whose
digit block has five digits, not exactly four. -/
theorem tokenizeMerchant_digit_overflow :
    (tokenizeMerchant (runMerchants ((List.range 9999).map (fun i => rep (i + 1)))
        emptyState) (rep 10000)).1 = mercPre ++ ['1', '0', '0', '0', '0'] ∧
    isMerchTok4 (tokenizeMerchant (runMerchants ((List.range 9999).map (fun i => rep (i + 1)))
        emptyState) (rep 10000)).1 = false := by
  rw [runMerchants_seq 9999]
  have h : tokenizeMerchant (seqState 9999) (rep 10000) =
      (tokenFor .merchant 10000, seqState 10000) := seqState_step 9999
  rw [h]
  constructor
  · decide
  · decide

/-! ### Transaction hash (C7) -/

theorem isHexCh_hexDigit {n : Nat} (h : n < 16) : isHexCh (hexDigit n) = true := by
  interval_cases n <;> decide

theorem hexOfBytes_length (bs : List Nat) : (hexOfBytes bs).length = 2 * bs.length := by
  induction bs with
  | nil => rfl
  | cons b rest ih =>
      unfold hexOfBytes
      simp [ih]
      omega

theorem hexOfBytes_all {bs : List Nat} (h : ∀ b ∈ bs, b < 256) :
    (hexOfBytes bs).all isHexCh = true := by
  induction bs with
  | nil => rfl
  | cons b rest ih =>
      unfold hexOfBytes
      rw [List.all_cons, List.all_cons]
      have hb := h b (List.mem_cons_self _ _)
      rw [isHexCh_hexDigit (by omega), isHexCh_hexDigit (by omega)]
      simp only [Bool.true_and]
      exact ih (fun b2 hm => h b2 (List.mem_cons_of_mem _ hm))

theorem sha256hex_length (msg : List Nat) : (sha256hex msg).length = 64 := by
  unfold sha256hex
  rw [hexOfBytes_length]
  simp [wordBytes]

theorem sha256hex_hex (msg : List Nat) : (sha256hex msg).all isHexCh = true := by
  unfold sha256hex
  apply hexOfBytes_all
  intro b hb
  simp only [wordBytes, List.mem_append, List.mem_cons, List.not_mem_nil, or_false] at hb
  omega

/-- **C7**: the transaction hash is a pure deterministic function of
(date, amount string, raw description, account id) producing 64 lowercase
hex characters, and it depends on the description only through
`strip().lower()` — so it is insensitive to case and to leading/trailing
whitespace of the description. -/
theorem generateTransactionHash_spec :
    (∀ (d : Date) (a desc acc : List Char),
        generateTransactionHash d a desc acc = generateTransactionHash d a desc acc) ∧
    (∀ (d : Date) (a acc desc1 desc2 : List Char),
        lowerL (stripL desc1) = lowerL (stripL desc2) →
        generateTransactionHash d a desc1 acc = generateTransactionHash d a desc2 acc) ∧
    (∀ (d : Date) (a desc acc : List Char),
        (generateTransactionHash d a desc acc).length = 64 ∧
        (generateTransactionHash d a desc acc).all isHexCh = true) := by
  refine ⟨fun _ _ _ _ => rfl, ?_, ?_⟩
  · intro d a acc d1 d2 hn
    unfold generateTransactionHash
    rw [hn]
  · intro d a desc acc
    exact ⟨sha256hex_length _, sha256hex_hex _⟩

/-- Witness for C7: the concrete case-and-whitespace example. -/
theorem generateTransactionHash_spec_witness :
    generateTransactionHash ⟨2024, 1, 15⟩ "-50.00".data "AMAZON".data "account-123".data =
      generateTransactionHash ⟨2024, 1, 15⟩ "-50.00".data "  amazon  ".data
        "account-123".data :=
  generateTransactionHash_spec.2.1 ⟨2024, 1, 15⟩ "-50.00".data "account-123".data
    "AMAZON".data "  amazon  ".data (by decide)

/-! ### Transaction-dict frame (C8) -/

theorem alookup_cons_ne {α β : Type} [DecidableEq α] (k k1 : α) (v1 : β)
    (l : List (α × β)) (h : ¬ k = k1) :
    alookup ((k1, v1) :: l) k = alookup l k := by
  simp only [alookup]
  rw [if_neg h]

theorem alookup_dset_ne (m : Dict) (k key : String) (v : Val) (h : ¬ k = key) :
    alookup (dset m key v) k = alookup m k := by
  induction m with
  | nil =>
      show alookup [(key, v)] k = alookup [] k
      rw [alookup_cons_ne _ _ _ _ h]
  | cons kv rest ih =>
      obtain ⟨k1, v1⟩ := kv
      unfold dset
      by_cases hk : key = k1
      · rw [if_pos hk]
        rw [alookup_cons_ne _ _ _ _ h,
          alookup_cons_ne _ _ _ _ (fun he => h (he.trans hk.symm))]
      · rw [if_neg hk]
        by_cases hkk : k = k1
        · subst hkk
          rw [alookup_cons_self, alookup_cons_self]
        · rw [alookup_cons_ne _ _ _ _ hkk, alookup_cons_ne _ _ _ _ hkk]
          exact ih

theorem alookup_dpop_ne (m : Dict) (k key : String) (h : ¬ k = key) :
    alookup (dpop m key) k = alookup m k := by
  induction m with
  | nil => rfl
  | cons kv rest ih =>
      obtain ⟨k1, v1⟩ := kv
      unfold dpop
      by_cases hk : key = k1
      · rw [if_pos hk]
        rw [alookup_cons_ne _ _ _ _ (fun he => h (he.trans hk.symm))]
      · rw [if_neg hk]
        by_cases hkk : k = k1
        · subst hkk
          rw [alookup_cons_self, alookup_cons_self]
        · rw [alookup_cons_ne _ _ _ _ hkk, alookup_cons_ne _ _ _ _ hkk]
          exact ih

theorem merchBlock_frame {st : TokState} {result : Dict} {inc : Bool} {r' : Dict}
    {st' : TokState} (h : merchBlock st result inc = some (r', st')) (k : String)
    (h1 : ¬ k = "merchant") (h2 : ¬ k = "clean_merchant")
    (h3 : ¬ k = "raw_description") :
    alookup r' k = alookup result k := by
  simp only [merchBlock] at h
  split at h
  · split at h
    · rw [Option.some.injEq, Prod.mk.injEq] at h
      obtain ⟨hr, -⟩ := h
      rw [← hr, alookup_dpop_ne _ _ _ h3, alookup_dpop_ne _ _ _ h2,
        alookup_dset_ne _ _ _ _ h1]
    · exact absurd h (by simp)
  · rw [Option.some.injEq, Prod.mk.injEq] at h
    obtain ⟨hr, -⟩ := h
    rw [← hr]

theorem descBlock_frame {st : TokState} {result : Dict} {r' : Dict} {st' : TokState}
    (h : descBlock st result = some (r', st')) (k : String)
    (h4 : ¬ k = "description") :
    alookup r' k = alookup result k := by
  simp only [descBlock] at h
  split at h
  · rw [Option.some.injEq, Prod.mk.injEq] at h
    obtain ⟨hr, -⟩ := h
    rw [← hr, alookup_dset_ne _ _ _ _ h4]
  · exact absurd h (by simp)
  · rw [Option.some.injEq, Prod.mk.injEq] at h
    obtain ⟨hr, -⟩ := h
    rw [← hr]

theorem dateBlock_frame {st : TokState} {rnd : Int} {result : Dict} {r' : Dict}
    {st' : TokState} (h : dateBlock st rnd result = some (r', st')) (k : String)
    (h5 : ¬ k = "date") :
    alookup r' k = alookup result k := by
  simp only [dateBlock] at h
  split at h
  · split at h
    · rw [Option.some.injEq, Prod.mk.injEq] at h
      obtain ⟨hr, -⟩ := h
      rw [← hr, alookup_dset_ne _ _ _ _ h5]
    · exact absurd h (by simp)
  · rw [Option.some.injEq, Prod.mk.injEq] at h
    obtain ⟨hr, -⟩ := h
    rw [← hr, alookup_dset_ne _ _ _ _ h5]
  · exact absurd h (by simp)
  · rw [Option.some.injEq, Prod.mk.injEq] at h
    obtain ⟨hr, -⟩ := h
    rw [← hr]

theorem acctBlock_frame {st : TokState} {result : Dict} {r' : Dict} {st' : TokState}
    (h : acctBlock st result = some (r', st')) (k : String)
    (h6 : ¬ k = "account_name") (h7 : ¬ k = "account_type") (h8 : ¬ k = "account") :
    alookup r' k = alookup result k := by
  simp only [acctBlock] at h
  split at h
  · rw [Option.some.injEq, Prod.mk.injEq] at h
    obtain ⟨hr, -⟩ := h
    rw [← hr, alookup_dpop_ne _ _ _ h7, alookup_dpop_ne _ _ _ h6,
      alookup_dset_ne _ _ _ _ h8]
  · exact absurd h (by simp)
  · rw [Option.some.injEq, Prod.mk.injEq] at h
    obtain ⟨hr, -⟩ := h
    rw [← hr]

/-- **C8**: `tokenize_transaction_for_ai` works on a copy of the input
mapping (the input itself, being a value in this model as after Python's
`dict(transaction)` copy, is never mutated), and in the returned mapping
every key other than the merchant fields (`merchant`, `clean_merchant`,
`raw_description`), `description`, `date`, and the account fields
(`account_name`, `account_type`, `account`) is present with its value
unchanged from the input. -/
theorem tokenizeTransactionForAI_frame (st : TokState) (rnd : Int) (txn : Dict)
    (inc : Bool) (out : Dict) (st' : TokState)
    (h : tokenizeTransactionForAI st rnd txn inc = some (out, st')) (k : String)
    (hk : ¬ k = "merchant" ∧ ¬ k = "clean_merchant" ∧ ¬ k = "raw_description" ∧
      ¬ k = "description" ∧ ¬ k = "date" ∧ ¬ k = "account_name" ∧
      ¬ k = "account_type" ∧ ¬ k = "account") :
    alookup out k = alookup txn k := by
  obtain ⟨h1, h2, h3, h4, h5, h6, h7, h8⟩ := hk
  unfold tokenizeTransactionForAI at h
  cases hq1 : merchBlock st txn inc with
  | none => rw [hq1] at h; exact absurd h (by simp)
  | some q1 =>
      rw [hq1] at h
      dsimp only at h
      cases hq2 : descBlock q1.2 q1.1 with
      | none => rw [hq2] at h; exact absurd h (by simp)
      | some q2 =>
          rw [hq2] at h
          dsimp only at h
          cases hq3 : dateBlock q2.2 rnd q2.1 with
          | none => rw [hq3] at h; exact absurd h (by simp)
          | some q3 =>
              rw [hq3] at h
              dsimp only at h
              calc alookup out k
                  = alookup q3.1 k := by
                    obtain ⟨q3a, q3b⟩ := q3
                    exact acctBlock_frame h k h6 h7 h8
                _ = alookup q2.1 k := by
                    obtain ⟨q2a, q2b⟩ := q2
                    exact dateBlock_frame hq3 k h5
                _ = alookup q1.1 k := by
                    obtain ⟨q1a, q1b⟩ := q1
                    exact descBlock_frame hq2 k h4
                _ = alookup txn k := merchBlock_frame hq1 k h1 h2 h3

/-! ### Person-name substitution (C4) -/

theorem subAllGo_irrel {m : List Char → Option (List Char × List Char)}
    {repl : List Char} :
    ∀ f1 f2 s, s.length < f1 → s.length < f2 →
      subAllGo m repl f1 s = subAllGo m repl f2 s := by
  intro f1
  induction f1 with
  | zero => intro f2 s h1 _; omega
  | succ g ih =>
      intro f2 s h1 h2
      cases f2 with
      | zero => omega
      | succ g2 =>
          cases s with
          | nil => rfl
          | cons c rest =>
              simp only [subAllGo]
              cases hx : m (c :: rest) with
              | none =>
                  simp only []
                  rw [ih g2 rest (by simp at h1; omega) (by simp at h2; omega)]
              | some pr =>
                  obtain ⟨cap, rest2⟩ := pr
                  simp only []
                  split_ifs with hlt
                  · rw [ih g2 rest2 (by simp at h1; omega) (by simp at h2; omega)]
                  · rw [ih g2 rest (by simp at h1; omega) (by simp at h2; omega)]

theorem subAllM_nil {m : List Char → Option (List Char × List Char)} {repl : List Char} :
    subAllM m repl [] = [] := rfl

theorem subAllGo_cons_none {m : List Char → Option (List Char × List Char)}
    {repl : List Char} {n : Nat} {c : Char} {rest : List Char}
    (hx : m (c :: rest) = none) :
    subAllGo m repl (n + 1) (c :: rest) = c :: subAllGo m repl n rest := by
  simp only [subAllGo, hx]

theorem subAllGo_cons_some {m : List Char → Option (List Char × List Char)}
    {repl : List Char} {n : Nat} {c : Char} {rest cap rest2 : List Char}
    (hx : m (c :: rest) = some (cap, rest2)) (hlt : rest2.length < rest.length + 1) :
    subAllGo m repl (n + 1) (c :: rest) = repl ++ subAllGo m repl n rest2 := by
  simp only [subAllGo, hx]
  rw [if_pos hlt]

theorem subAllM_none {m : List Char → Option (List Char × List Char)} {repl : List Char}
    {c : Char} {rest : List Char} (hx : m (c :: rest) = none) :
    subAllM m repl (c :: rest) = c :: subAllM m repl rest := by
  unfold subAllM
  show subAllGo m repl (rest.length + 1 + 1) (c :: rest) = _
  rw [subAllGo_cons_none hx]

theorem subAllM_some {m : List Char → Option (List Char × List Char)} {repl : List Char}
    {c : Char} {rest cap rest2 : List Char} (hx : m (c :: rest) = some (cap, rest2))
    (hlt : rest2.length < rest.length + 1) :
    subAllM m repl (c :: rest) = repl ++ subAllM m repl rest2 := by
  unfold subAllM
  show subAllGo m repl (rest.length + 1 + 1) (c :: rest) = _
  rw [subAllGo_cons_some hx hlt]
  rw [subAllGo_irrel (rest.length + 1) (rest2.length + 1) rest2 (by omega) (by omega)]

theorem subAll_SubRel (m : List Char → Option (List Char × List Char)) (repl : List Char)
    (hm : ∀ c s cap rest2, m (c :: s) = some (cap, rest2) → rest2.length < s.length + 1) :
    ∀ s, SubRel m repl s (subAllM m repl s) := by
  have haux : ∀ n s, s.length < n → SubRel m repl s (subAllM m repl s) := by
    intro n
    induction n with
    | zero => intro s h; omega
    | succ k ih =>
        intro s hs
        cases s with
        | nil => exact SubRel.nil
        | cons c rest =>
            cases hx : m (c :: rest) with
            | none =>
                rw [subAllM_none hx]
                exact SubRel.keep c rest _ hx (ih rest (by simp at hs; omega))
            | some pr =>
                obtain ⟨cap, rest2⟩ := pr
                have hlt := hm c rest cap rest2 hx
                rw [subAllM_some hx hlt]
                exact SubRel.rep c rest rest2 _ cap hx hlt
                  (ih rest2 (by simp at hs; omega))
  exact fun s => haux (s.length + 1) s (by omega)

theorem litM_le {ci : Bool} :
    ∀ (pat s r : List Char), litM ci pat s = some r → r.length ≤ s.length := by
  intro pat
  induction pat with
  | nil =>
      intro s r h
      obtain rfl := Option.some.inj h
      exact le_refl _
  | cons p ps ih =>
      intro s r h
      cases s with
      | nil => exact absurd h (by simp [litM])
      | cons c cs =>
          unfold litM at h
          split_ifs at h
          have := ih cs r h
          simp
          omega

theorem spacesP_lt {s r : List Char} (h : spacesP s = some r) : r.length < s.length := by
  cases s with
  | nil => exact absurd h (by simp [spacesP])
  | cons c cs =>
      simp only [spacesP] at h
      split_ifs at h
      obtain rfl := Option.some.inj h
      have := List.Sublist.length_le (List.dropWhile_sublist (l := cs) isSpaceCh)
      simp
      omega

theorem groupCapM_lt {ci : Bool} {s cap rest : List Char}
    (h : groupCapM ci s = some (cap, rest)) : rest.length < s.length := by
  cases s with
  | nil => exact absurd h (by simp [groupCapM])
  | cons c cs =>
      simp only [groupCapM] at h
      split_ifs at h
      rw [Option.some.injEq, Prod.mk.injEq] at h
      obtain ⟨-, hr⟩ := h
      rw [← hr]
      have := List.Sublist.length_le (List.dropWhile_sublist (l := cs) (fun c2 => classAZ ci c2 || isSpaceCh c2))
      simp
      omega

theorem toFromGroup_lt {ci : Bool} {s cap rest : List Char}
    (h : toFromGroup ci s = some (cap, rest)) : rest.length < s.length := by
  unfold toFromGroup at h
  cases hx : (litM ci "TO".data s).bind (fun a =>
      (spacesP a).bind (fun b => groupCapM ci b)) with
  | some r =>
      rw [hx] at h
      obtain rfl := Option.some.inj h
      rw [Option.bind_eq_some] at hx
      obtain ⟨a, hla, hx⟩ := hx
      rw [Option.bind_eq_some] at hx
      obtain ⟨b, hsb, hg⟩ := hx
      have h1 := litM_le _ _ _ hla
      have h2 := spacesP_lt hsb
      have h3 := groupCapM_lt hg
      omega
  | none =>
      rw [hx] at h
      cases hy : (litM ci "FROM".data s).bind (fun a =>
          (spacesP a).bind (fun b => groupCapM ci b)) with
      | some r =>
          rw [hy] at h
          obtain rfl := Option.some.inj h
          rw [Option.bind_eq_some] at hy
          obtain ⟨a, hla, hy⟩ := hy
          rw [Option.bind_eq_some] at hy
          obtain ⟨b, hsb, hg⟩ := hy
          have h1 := litM_le _ _ _ hla
          have h2 := spacesP_lt hsb
          have h3 := groupCapM_lt hg
          omega
      | none =>
          rw [hy] at h
          exact groupCapM_lt h

theorem venmoM_shrink {ci : Bool} {s cap rest2 : List Char}
    (h : venmoM ci s = some (cap, rest2)) : rest2.length < s.length := by
  unfold venmoM at h
  rw [Option.bind_eq_some] at h
  obtain ⟨s1, hl1, h⟩ := h
  rw [Option.bind_eq_some] at h
  obtain ⟨s2, hsp, h⟩ := h
  have hle1 := litM_le _ _ _ hl1
  have hlt2 := spacesP_lt hsp
  cases hx : (litM ci "PAYMENT".data s2).bind (fun s3 =>
      (spacesP s3).bind (fun s4 => groupCapM ci s4)) with
  | some r =>
      rw [hx] at h
      obtain rfl := Option.some.inj h
      rw [Option.bind_eq_some] at hx
      obtain ⟨s3, hl3, hx⟩ := hx
      rw [Option.bind_eq_some] at hx
      obtain ⟨s4, hsp4, hg⟩ := hx
      have h3 := litM_le _ _ _ hl3
      have h4 := spacesP_lt hsp4
      have h5 := groupCapM_lt hg
      omega
  | none =>
      rw [hx] at h
      have := groupCapM_lt h
      omega

theorem zelleM_shrink {ci : Bool} {s cap rest2 : List Char}
    (h : zelleM ci s = some (cap, rest2)) : rest2.length < s.length := by
  unfold zelleM at h
  rw [Option.bind_eq_some] at h
  obtain ⟨s1, hl1, h⟩ := h
  rw [Option.bind_eq_some] at h
  obtain ⟨s2, hsp, h⟩ := h
  have hle1 := litM_le _ _ _ hl1
  have hlt2 := spacesP_lt hsp
  cases hx : (litM ci "PAYMENT".data s2).bind (fun s3 =>
      (spacesP s3).bind (fun s4 => toFromGroup ci s4)) with
  | some r =>
      rw [hx] at h
      obtain rfl := Option.some.inj h
      rw [Option.bind_eq_some] at hx
      obtain ⟨s3, hl3, hx⟩ := hx
      rw [Option.bind_eq_some] at hx
      obtain ⟨s4, hsp4, hg⟩ := hx
      have h3 := litM_le _ _ _ hl3
      have h4 := spacesP_lt hsp4
      have h5 := toFromGroup_lt hg
      omega
  | none =>
      rw [hx] at h
      have := toFromGroup_lt h
      omega

theorem paypalM_shrink {ci : Bool} {s cap rest2 : List Char}
    (h : paypalM ci s = some (cap, rest2)) : rest2.length < s.length := by
  unfold paypalM at h
  rw [Option.bind_eq_some] at h
  obtain ⟨s1, hl1, h⟩ := h
  rw [Option.bind_eq_some] at h
  obtain ⟨s2, hsp, h⟩ := h
  rw [Option.bind_eq_some] at h
  obtain ⟨s3, hl3, hg⟩ := h
  have h1 := litM_le _ _ _ hl1
  have h2 := spacesP_lt hsp
  have h3 := litM_le _ _ _ hl3
  have h4 := groupCapM_lt hg
  omega

theorem cashappM_shrink {ci : Bool} {s cap rest2 : List Char}
    (h : cashappM ci s = some (cap, rest2)) : rest2.length < s.length := by
  unfold cashappM at h
  rw [Option.bind_eq_some] at h
  obtain ⟨s1, hl1, h⟩ := h
  rw [Option.bind_eq_some] at h
  obtain ⟨s2, hsp, h⟩ := h
  rw [Option.bind_eq_some] at h
  obtain ⟨s3, hl3, h⟩ := h
  rw [Option.bind_eq_some] at h
  obtain ⟨s4, hsp4, h⟩ := h
  rw [Option.bind_eq_some] at h
  obtain ⟨s5, hl5, hg⟩ := h
  have h1 := litM_le _ _ _ hl1
  have h2 := spacesP_lt hsp
  have h3 := litM_le _ _ _ hl3
  have h4 := spacesP_lt hsp4
  have h5 := litM_le _ _ _ hl5
  have h6 := groupCapM_lt hg
  omega

theorem descStep_spec (st : TokState) (description current : List Char)
    (m : Bool → List Char → Option (List Char × List Char)) (service : List Char)
    (hm : ∀ c s cap rest2, m true (c :: s) = some (cap, rest2) →
      rest2.length < s.length + 1) :
    StepSpec st description current m service (descStep st description current m service) := by
  unfold StepSpec descStep
  cases hs : searchM (m false) (upperL description) with
  | some cap =>
      refine ⟨?_, rfl⟩
      exact subAll_SubRel (m true) _ hm current
  | none => rfl

/-- Counterexample to C4 as stated: with two VENMO matches in one text,
the second match is replaced too (and with the token minted from the
first match's name), where the claim promises that only the first match
per pattern is replaced per call. -/
theorem tokenizeDescription_second_match_replaced :
    (tokenizeDescription emptyState "VENMO JOHN 5 VENMO JANE".data).1 =
      "VENMO PERSON_0015 VENMO PERSON_001".data ∧
    "VENMO PERSON_0015 VENMO PERSON_001".data ≠
      "VENMO PERSON_0015 VENMO JANE".data := by
  constructor
  · decide
  · decide

/-- **C4** (amended): `tokenize_description` searches each known pattern
case-insensitively (on the uppercased text, substituting with the
IGNORECASE flag); for each pattern that matches, it mints one person
token from the first match's stripped captured name and replaces *every*
non-overlapping match of that pattern in the running text by the service
keyword followed by that token; and when no pattern matches, the text is
returned unchanged with the store untouched. -/
theorem tokenizeDescription_spec :
    (∀ st text, searchM (venmoM false) (upperL text) = none →
      searchM (zelleM false) (upperL text) = none →
      searchM (paypalM false) (upperL text) = none →
      searchM (cashappM false) (upperL text) = none →
      tokenizeDescription st text = (text, st)) ∧
    (∀ st text, DescSpec st text (tokenizeDescription st text)) := by
  constructor
  · intro st text hv hz hp hc
    unfold tokenizeDescription descStep
    rw [hv, hz, hp, hc]
  · intro st text
    unfold DescSpec
    refine ⟨descStep st text text venmoM "VENMO".data,
      descStep (descStep st text text venmoM "VENMO".data).2 text
        (descStep st text text venmoM "VENMO".data).1 zelleM "ZELLE".data,
      descStep (descStep (descStep st text text venmoM "VENMO".data).2 text
          (descStep st text text venmoM "VENMO".data).1 zelleM "ZELLE".data).2 text
        (descStep (descStep st text text venmoM "VENMO".data).2 text
          (descStep st text text venmoM "VENMO".data).1 zelleM "ZELLE".data).1
        paypalM "PAYPAL".data, ?_, ?_, ?_, ?_⟩
    · exact descStep_spec st text text venmoM "VENMO".data
        (fun c s cap rest2 h => venmoM_shrink h)
    · exact descStep_spec _ text _ zelleM "ZELLE".data
        (fun c s cap rest2 h => zelleM_shrink h)
    · exact descStep_spec _ text _ paypalM "PAYPAL".data
        (fun c s cap rest2 h => paypalM_shrink h)
    · exact descStep_spec _ text _ cashappM "CASH APP".data
        (fun c s cap rest2 h => cashappM_shrink h)

/-- Witness for C4 at a concrete pattern-free text. -/
theorem tokenizeDescription_spec_witness :
    tokenizeDescription emptyState "GROCERY STORE 42".data =
      ("GROCERY STORE 42".data, emptyState) :=
  tokenizeDescription_spec.1 emptyState "GROCERY STORE 42".data
    (by decide) (by decide) (by decide) (by decide)

/-- Witness for C8: a transaction with a merchant and an unrelated
`amount` field; the `amount` entry is untouched. -/
theorem tokenizeTransactionForAI_frame_witness :
    alookup [("merchant", Val.s "MERCHANT_0001".data), ("amount", Val.other 5)] "amount" =
      alookup [("merchant", Val.s "Whole Foods".data), ("amount", Val.other 5)] "amount" :=
  tokenizeTransactionForAI_frame emptyState 0
    [("merchant", Val.s "Whole Foods".data), ("amount", Val.other 5)] true
    [("merchant", Val.s "MERCHANT_0001".data), ("amount", Val.other 5)]
    ⟨[⟨.merchant, "Whole Foods".data, "WHOLE FOODS".data, "MERCHANT_0001".data⟩],
      [((TokenType.merchant, "WHOLE FOODS".data), "MERCHANT_0001".data)],
      [("MERCHANT_0001".data, "Whole Foods".data)], none, none⟩
    (by decide) "amount" (by decide)

/-! ### `detokenize` (C2) -/

theorem litM_false_eq :
    ∀ (p s r : List Char), litM false p s = some r ↔ s = p ++ r := by
  intro p
  induction p with
  | nil =>
      intro s r
      simp [litM]
  | cons p ps ih =>
      intro s r
      cases s with
      | nil => simp [litM]
      | cons c cs =>
          unfold litM
          by_cases hc : chMatch false p c = true
          · rw [if_pos hc]
            have hcp : c = p := by
              simpa [chMatch] using hc
            subst hcp
            rw [ih cs r]
            simp
          · rw [if_neg hc]
            have hcp : ¬ c = p := by
              intro h
              exact hc (by simp [chMatch, h])
            simp
            intro h _
            exact hcp h

theorem litM_self (p r : List Char) : litM false p (p ++ r) = some r :=
  (litM_false_eq p (p ++ r) r).mpr rfl

theorem replOf_eq_none {old z : List Char} (h : ¬ old <+: z) : replOf old z = none := by
  unfold replOf
  cases hl : litM false old z with
  | none => rfl
  | some r =>
      rw [litM_false_eq] at hl
      exact absurd ⟨r, hl.symm⟩ h

theorem replOf_self (old r : List Char) : replOf old (old ++ r) = some (old, r) := by
  unfold replOf
  rw [litM_self]
  rfl

theorem takeDigits_some :
    ∀ (n : Nat) (s ds rest : List Char), takeDigits n s = some (ds, rest) →
      ds.length = n ∧ allDigits ds ∧ s = ds ++ rest := by
  intro n
  induction n with
  | zero =>
      intro s ds rest h
      unfold takeDigits at h
      rw [Option.some.injEq, Prod.mk.injEq] at h
      obtain ⟨h1, h2⟩ := h
      subst h1; subst h2
      exact ⟨rfl, fun c hc => absurd hc (List.not_mem_nil c), rfl⟩
  | succ n ih =>
      intro s ds rest h
      cases s with
      | nil => exact absurd h (by simp [takeDigits])
      | cons c cs =>
          unfold takeDigits at h
          split_ifs at h with hd
          cases ht : takeDigits n cs with
          | none => rw [ht] at h; exact absurd h (by simp)
          | some pr =>
              obtain ⟨ds2, rest2⟩ := pr
              rw [ht] at h
              rw [Option.some.injEq, Prod.mk.injEq] at h
              obtain ⟨h1, h2⟩ := h
              subst h2
              obtain ⟨hl, hall, hs⟩ := ih cs ds2 rest2 ht
              subst hs
              rw [← h1]
              refine ⟨by simp [hl], ?_, by simp⟩
              intro x hx
              rcases List.mem_cons.mp hx with hx | hx
              · subst hx; exact hd
              · exact hall x hx

theorem takeDigits_append :
    ∀ (ds rest : List Char), allDigits ds → takeDigits ds.length (ds ++ rest) =
      some (ds, rest) := by
  intro ds
  induction ds with
  | nil => intro rest _; rfl
  | cons c cs ih =>
      intro rest hall
      show takeDigits (cs.length + 1) (c :: (cs ++ rest)) = _
      unfold takeDigits
      rw [if_pos (hall c (List.mem_cons_self c cs))]
      rw [ih rest (fun x hx => hall x (List.mem_cons_of_mem c hx))]

theorem matchTokenAt_some {s t rest : List Char}
    (h : matchTokenAt s = some (t, rest)) : tokenShaped t ∧ s = t ++ rest := by
  unfold matchTokenAt at h
  cases h1 : (litM false mercPre s).bind (takeDigits 4) with
  | some pr =>
      obtain ⟨ds, r⟩ := pr
      rw [h1] at h
      rw [Option.some.injEq, Prod.mk.injEq] at h
      obtain ⟨ht, hr⟩ := h
      subst ht; subst hr
      rw [Option.bind_eq_some] at h1
      obtain ⟨s1, hl, htd⟩ := h1
      obtain ⟨hlen, hall, hs1⟩ := takeDigits_some 4 s1 ds r htd
      rw [litM_false_eq] at hl
      subst hs1
      exact ⟨Or.inl ⟨ds, hlen, hall, rfl⟩, by rw [hl, List.append_assoc]⟩
  | none =>
      rw [h1] at h
      cases h2 : (litM false accPre s).bind (takeDigits 3) with
      | some pr =>
          obtain ⟨ds, r⟩ := pr
          rw [h2] at h
          rw [Option.some.injEq, Prod.mk.injEq] at h
          obtain ⟨ht, hr⟩ := h
          subst ht; subst hr
          rw [Option.bind_eq_some] at h2
          obtain ⟨s1, hl, htd⟩ := h2
          obtain ⟨hlen, hall, hs1⟩ := takeDigits_some 3 s1 ds r htd
          rw [litM_false_eq] at hl
          subst hs1
          exact ⟨Or.inr (Or.inl ⟨ds, hlen, hall, rfl⟩), by rw [hl, List.append_assoc]⟩
      | none =>
          rw [h2] at h
          cases h3 : (litM false persPre s).bind (takeDigits 3) with
          | some pr =>
              obtain ⟨ds, r⟩ := pr
              rw [h3] at h
              rw [Option.some.injEq, Prod.mk.injEq] at h
              obtain ⟨ht, hr⟩ := h
              subst ht; subst hr
              rw [Option.bind_eq_some] at h3
              obtain ⟨s1, hl, htd⟩ := h3
              obtain ⟨hlen, hall, hs1⟩ := takeDigits_some 3 s1 ds r htd
              rw [litM_false_eq] at hl
              subst hs1
              exact ⟨Or.inr (Or.inr ⟨ds, hlen, hall, rfl⟩), by rw [hl, List.append_assoc]⟩
          | none => rw [h3] at h; exact absurd h (by simp)

theorem tokenShaped_matchTokenAt {t : List Char} (h : tokenShaped t) (r : List Char) :
    matchTokenAt (t ++ r) = some (t, r) := by
  rcases h with ⟨ds, hlen, hall, ht⟩ | ⟨ds, hlen, hall, ht⟩ | ⟨ds, hlen, hall, ht⟩
  · subst ht
    have hbind : (litM false mercPre (mercPre ++ (ds ++ r))).bind (takeDigits 4) =
        some (ds, r) := by
      rw [litM_self, Option.some_bind, ← hlen]
      exact takeDigits_append ds r hall
    unfold matchTokenAt
    rw [List.append_assoc, hbind]
  · subst ht
    have h1 : (litM false mercPre (accPre ++ (ds ++ r))).bind (takeDigits 4) = none := by
      have : litM false mercPre (accPre ++ (ds ++ r)) = none := by
        simp [accPre, mercPre, litM, chMatch]
      rw [this]
      rfl
    have hbind : (litM false accPre (accPre ++ (ds ++ r))).bind (takeDigits 3) =
        some (ds, r) := by
      rw [litM_self, Option.some_bind, ← hlen]
      exact takeDigits_append ds r hall
    unfold matchTokenAt
    rw [List.append_assoc, h1, hbind]
  · subst ht
    have h0 : (litM false mercPre (persPre ++ (ds ++ r))).bind (takeDigits 4) = none := by
      have : litM false mercPre (persPre ++ (ds ++ r)) = none := by
        simp [persPre, mercPre, litM, chMatch]
      rw [this]
      rfl
    have h2 : (litM false accPre (persPre ++ (ds ++ r))).bind (takeDigits 3) = none := by
      have : litM false accPre (persPre ++ (ds ++ r)) = none := by
        simp [persPre, accPre, litM, chMatch]
      rw [this]
      rfl
    have hbind : (litM false persPre (persPre ++ (ds ++ r))).bind (takeDigits 3) =
        some (ds, r) := by
      rw [litM_self, Option.some_bind, ← hlen]
      exact takeDigits_append ds r hall
    unfold matchTokenAt
    rw [List.append_assoc, h0, h2, hbind]

theorem tokenShaped_length {t : List Char} (h : tokenShaped t) : 10 ≤ t.length := by
  rcases h with ⟨ds, hlen, -, ht⟩ | ⟨ds, hlen, -, ht⟩ | ⟨ds, hlen, -, ht⟩ <;>
    subst ht <;> simp [mercPre, accPre, persPre, hlen]

theorem tokenShaped_ne_nil {t : List Char} (h : tokenShaped t) : t ≠ [] := by
  intro hnil
  have := tokenShaped_length h
  rw [hnil] at this
  simp at this

theorem matchTokenAt_shrink {c : Char} {cs t rest : List Char}
    (h : matchTokenAt (c :: cs) = some (t, rest)) : rest.length < cs.length + 1 := by
  obtain ⟨hshape, heq⟩ := matchTokenAt_some h
  have h10 := tokenShaped_length hshape
  have : (c :: cs).length = t.length + rest.length := by rw [heq]; simp
  simp at this
  omega

/-- A nonempty suffix of a token-shaped string contains a digit (its
last character). -/
theorem suffix_digit {t w : List Char} (h : tokenShaped t) (hw : w <:+ t)
    (hne : w ≠ []) : ∃ d ∈ w, isDigitCh d = true := by
  have hrev : w.reverse <+: t.reverse := List.reverse_prefix.mpr hw
  rcases h with ⟨ds, hlen, hall, ht⟩ | ⟨ds, hlen, hall, ht⟩ | ⟨ds, hlen, hall, ht⟩ <;>
    subst ht <;>
    [skip; skip; skip] <;>
  · rw [List.reverse_append] at hrev
    cases hds : ds.reverse with
    | nil =>
        rw [List.reverse_eq_nil_iff] at hds
        rw [hds] at hlen
        simp at hlen
    | cons d0 dr =>
        rw [hds] at hrev
        cases hwr : w.reverse with
        | nil =>
            rw [List.reverse_eq_nil_iff] at hwr
            exact absurd hwr hne
        | cons x xr =>
            rw [hwr] at hrev
            rw [List.cons_append, List.cons_prefix_cons] at hrev
            refine ⟨x, ?_, ?_⟩
            · have : x ∈ w.reverse := by rw [hwr]; exact List.mem_cons_self x xr
              exact List.mem_reverse.mp this
            · have hd0 : d0 ∈ ds := by
                have : d0 ∈ ds.reverse := by rw [hds]; exact List.mem_cons_self d0 dr
                exact List.mem_reverse.mp this
              rw [hrev.1]
              exact hall d0 hd0

theorem scanSegsGo_irrel :
    ∀ f1 f2 s, s.length < f1 → s.length < f2 → scanSegsGo f1 s = scanSegsGo f2 s := by
  intro f1
  induction f1 with
  | zero => intro f2 s h1 _; omega
  | succ g ih =>
      intro f2 s h1 h2
      cases f2 with
      | zero => omega
      | succ g2 =>
          cases s with
          | nil => rfl
          | cons c cs =>
              simp only [scanSegsGo]
              cases hx : matchTokenAt (c :: cs) with
              | none =>
                  simp only []
                  rw [ih g2 cs (by simp at h1; omega) (by simp at h2; omega)]
              | some pr =>
                  obtain ⟨t, rest⟩ := pr
                  simp only []
                  have hlt := matchTokenAt_shrink hx
                  rw [ih g2 rest (by simp at h1; omega) (by simp at h2; omega)]

theorem findTokensGo_irrel :
    ∀ f1 f2 s, s.length < f1 → s.length < f2 → findTokensGo f1 s = findTokensGo f2 s := by
  intro f1
  induction f1 with
  | zero => intro f2 s h1 _; omega
  | succ g ih =>
      intro f2 s h1 h2
      cases f2 with
      | zero => omega
      | succ g2 =>
          cases s with
          | nil => rfl
          | cons c cs =>
              simp only [findTokensGo]
              cases hx : matchTokenAt (c :: cs) with
              | none =>
                  simp only []
                  rw [ih g2 cs (by simp at h1; omega) (by simp at h2; omega)]
              | some pr =>
                  obtain ⟨t, rest⟩ := pr
                  simp only []
                  have hlt := matchTokenAt_shrink hx
                  rw [ih g2 rest (by simp at h1; omega) (by simp at h2; omega)]

theorem scanSegs_nil : scanSegs [] = [] := rfl

theorem scanSegs_cons_none {c : Char} {cs : List Char}
    (hx : matchTokenAt (c :: cs) = none) :
    scanSegs (c :: cs) = Seg.lit c :: scanSegs cs := by
  unfold scanSegs
  show scanSegsGo (cs.length + 1 + 1) (c :: cs) = _
  simp only [scanSegsGo, hx]

theorem scanSegs_cons_some {c : Char} {cs t rest : List Char}
    (hx : matchTokenAt (c :: cs) = some (t, rest)) :
    scanSegs (c :: cs) = Seg.tok t :: scanSegs rest := by
  have hlt := matchTokenAt_shrink hx
  unfold scanSegs
  show scanSegsGo (cs.length + 1 + 1) (c :: cs) = _
  simp only [scanSegsGo, hx]
  rw [scanSegsGo_irrel (cs.length + 1) (rest.length + 1) rest (by omega) (by omega)]

theorem findTokens_nil : findTokens [] = [] := rfl

theorem findTokens_cons_none {c : Char} {cs : List Char}
    (hx : matchTokenAt (c :: cs) = none) :
    findTokens (c :: cs) = findTokens cs := by
  unfold findTokens
  show findTokensGo (cs.length + 1 + 1) (c :: cs) = _
  simp only [findTokensGo, hx]

theorem findTokens_cons_some {c : Char} {cs t rest : List Char}
    (hx : matchTokenAt (c :: cs) = some (t, rest)) :
    findTokens (c :: cs) = t :: findTokens rest := by
  have hlt := matchTokenAt_shrink hx
  unfold findTokens
  show findTokensGo (cs.length + 1 + 1) (c :: cs) = _
  simp only [findTokensGo, hx]
  rw [findTokensGo_irrel (cs.length + 1) (rest.length + 1) rest (by omega) (by omega)]

/-- The scan is faithful: rendering the segments back gives the text,
the segments are well-formed, and `finditer`'s matches are the segment
tokens in order. -/
theorem scanSegs_props :
    ∀ s, renderId (scanSegs s) = s ∧ wfSegs (scanSegs s) ∧
      findTokens s = segTokens (scanSegs s) := by
  have haux : ∀ n s, s.length < n → renderId (scanSegs s) = s ∧ wfSegs (scanSegs s) ∧
      findTokens s = segTokens (scanSegs s) := by
    intro n
    induction n with
    | zero => intro s h; omega
    | succ k ih =>
        intro s hs
        cases s with
        | nil => exact ⟨rfl, trivial, rfl⟩
        | cons c cs =>
            cases hx : matchTokenAt (c :: cs) with
            | none =>
                obtain ⟨hr, hw, hf⟩ := ih cs (by simp at hs; omega)
                rw [scanSegs_cons_none hx, findTokens_cons_none hx]
                refine ⟨?_, ?_, ?_⟩
                · show c :: renderId (scanSegs cs) = c :: cs
                  rw [hr]
                · show matchTokenAt (c :: renderId (scanSegs cs)) = none ∧ _
                  rw [hr]
                  exact ⟨hx, hw⟩
                · show findTokens cs = segTokens (scanSegs cs)
                  exact hf
            | some pr =>
                obtain ⟨t, rest⟩ := pr
                have hlt := matchTokenAt_shrink hx
                obtain ⟨hshape, heq⟩ := matchTokenAt_some hx
                obtain ⟨hr, hw, hf⟩ := ih rest (by simp at hs; omega)
                rw [scanSegs_cons_some hx, findTokens_cons_some hx]
                refine ⟨?_, ⟨hshape, hw⟩, ?_⟩
                · show t ++ renderId (scanSegs rest) = c :: cs
                  rw [hr, heq]
                · show t :: findTokens rest = t :: segTokens (scanSegs rest)
                  rw [hf]
  exact fun s => haux (s.length + 1) s (by omega)

theorem prefixAppendSplit {w a b : List Char} (h : w <+: a ++ b) :
    w <+: a ∨ ∃ w2, w = a ++ w2 ∧ w2 <+: b := by
  obtain ⟨r, hr⟩ := h
  rcases List.append_eq_append_iff.mp hr with ⟨a2, ha, -⟩ | ⟨c2, hw, hb⟩
  · left
    exact ⟨a2, ha.symm⟩
  · right
    exact ⟨c2, hw, ⟨r, hb.symm⟩⟩

theorem suffixAppendSplit {t a b : List Char} (h : t <:+ a ++ b) :
    t <:+ b ∨ ∃ t1, t1 <:+ a ∧ t = t1 ++ b := by
  obtain ⟨s, hs⟩ := h
  rcases List.append_eq_append_iff.mp hs with ⟨a2, ha, ht⟩ | ⟨c2, hs2, hb⟩
  · right
    exact ⟨a2, ⟨s, ha.symm⟩, ht⟩
  · left
    exact ⟨c2, hb.symm⟩

/-- A string without underscores that is a prefix of `letters ++ '_' :: ds`
is a prefix of `letters`. -/
theorem prefNoUnderscore {u letters ds : List Char}
    (hu : ∀ c ∈ u, c ≠ '_') (h : u <+: letters ++ '_' :: ds) : u <+: letters := by
  rcases prefixAppendSplit h with h | ⟨u2, hu2, hp⟩
  · exact h
  · cases u2 with
    | nil =>
        rw [hu2]
        simp
    | cons z zr =>
        rw [List.cons_prefix_cons] at hp
        exfalso
        refine hu z ?_ hp.1
        rw [hu2]
        exact List.mem_append_right letters (List.mem_cons_self z zr)

/-- A nonempty string without underscores or digits that is an infix of
`letters ++ '_' :: ds` (all of `ds` digits) is an infix of `letters`. -/
theorem infixNoUnderscore {o letters ds : List Char} (hne : o ≠ [])
    (ho : ∀ c ∈ o, isDigitCh c = false ∧ c ≠ '_') (hds : allDigits ds)
    (h : o <:+: letters ++ '_' :: ds) : o <:+: letters := by
  obtain ⟨t, hpre, hsuf⟩ := List.infix_iff_prefix_suffix.mp h
  rcases suffixAppendSplit hsuf with ht | ⟨t1, ht1, ht⟩
  · exfalso
    cases o with
    | nil => exact hne rfl
    | cons x xr =>
        obtain ⟨r, hr⟩ := hpre
        have hx : x ∈ '_' :: ds := by
          have : x ∈ t := by rw [← hr]; exact List.mem_append_left _ (List.mem_cons_self x xr)
          exact ht.subset this
        rcases List.mem_cons.mp hx with hx | hx
        · exact (ho x (List.mem_cons_self x xr)).2 hx
        · have := (ho x (List.mem_cons_self x xr)).1
          rw [hds x hx] at this
          exact absurd this (by decide)
  · subst ht
    rcases prefixAppendSplit hpre with h2 | ⟨o2, ho2, hp2⟩
    · exact List.infix_iff_prefix_suffix.mpr ⟨t1, h2, ht1⟩
    · cases o2 with
      | nil =>
          rw [List.append_nil] at ho2
          rw [ho2]
          exact ht1.isInfix
      | cons z zr =>
          rw [List.cons_prefix_cons] at hp2
          exfalso
          refine (ho z ?_).2 hp2.1
          rw [ho2]
          exact List.mem_append_right t1 (List.mem_cons_self z zr)

theorem digit_not_MAP {c : Char} (h : isDigitCh c = true) :
    c ≠ 'M' ∧ c ≠ 'A' ∧ c ≠ 'P' := by
  refine ⟨?_, ?_, ?_⟩ <;> intro he <;> rw [he] at h <;> exact absurd h (by decide)

/-- Every token-shaped string starts with one of the two-character marks
`ME`, `AC`, `PE`. -/
theorem tokHeadTwo {t : List Char} (h : tokenShaped t) :
    ∃ x y tl, t = x :: y :: tl ∧
      ((x = 'M' ∧ y = 'E') ∨ (x = 'A' ∧ y = 'C') ∨ (x = 'P' ∧ y = 'E')) := by
  rcases h with ⟨ds, -, -, ht⟩ | ⟨ds, -, -, ht⟩ | ⟨ds, -, -, ht⟩ <;> subst ht
  · exact ⟨'M', 'E', _, rfl, Or.inl ⟨rfl, rfl⟩⟩
  · exact ⟨'A', 'C', _, rfl, Or.inr (Or.inl ⟨rfl, rfl⟩)⟩
  · exact ⟨'P', 'E', _, rfl, Or.inr (Or.inr ⟨rfl, rfl⟩)⟩

/-- Whether the two-character mark of one of the token prefixes can start
here, whatever text follows. -/
def noMarkFrom : List Char → Prop
  | [] => True
  | [c] => c ≠ 'M' ∧ c ≠ 'A' ∧ c ≠ 'P'
  | c :: d :: _ =>
      ¬ ((c = 'M' ∧ d = 'E') ∨ (c = 'A' ∧ d = 'C') ∨ (c = 'P' ∧ d = 'E'))

/-- No strict tail starts a token mark. -/
def allTailsSafe : List Char → Prop
  | [] => True
  | _ :: rest => noMarkFrom rest ∧ allTailsSafe rest

theorem allTailsSafe_token {t : List Char} (h : tokenShaped t) : allTailsSafe t := by
  rcases h with ⟨ds, hlen, hall, ht⟩ | ⟨ds, hlen, hall, ht⟩ | ⟨ds, hlen, hall, ht⟩ <;>
    subst ht
  · obtain ⟨d1, d2, d3, d4, hds⟩ : ∃ a b c d, ds = [a, b, c, d] := by
      cases ds with
      | nil => simp at hlen
      | cons a l1 =>
        cases l1 with
        | nil => simp at hlen
        | cons b l2 =>
          cases l2 with
          | nil => simp at hlen
          | cons c l3 =>
            cases l3 with
            | nil => simp at hlen
            | cons d l4 =>
              cases l4 with
              | nil => exact ⟨a, b, c, d, rfl⟩
              | cons e l5 => simp at hlen
    subst hds
    have hd1 := digit_not_MAP (hall d1 (by simp))
    have hd2 := digit_not_MAP (hall d2 (by simp))
    have hd3 := digit_not_MAP (hall d3 (by simp))
    have hd4 := digit_not_MAP (hall d4 (by simp))
    show allTailsSafe ('M' :: 'E' :: 'R' :: 'C' :: 'H' :: 'A' :: 'N' :: 'T' :: '_' ::
      d1 :: d2 :: d3 :: [d4])
    simp only [allTailsSafe, noMarkFrom]
    refine ⟨by decide, by decide, by decide, by decide, by decide, by decide, by decide,
      ?_, ?_, ?_, ?_, hd4, trivial, trivial⟩ <;>
      rintro (⟨h1, -⟩ | ⟨h1, -⟩ | ⟨h1, -⟩) <;>
      first
      | exact absurd h1 (by decide)
      | exact hd1.1 h1 | exact hd1.2.1 h1 | exact hd1.2.2 h1
      | exact hd2.1 h1 | exact hd2.2.1 h1 | exact hd2.2.2 h1
      | exact hd3.1 h1 | exact hd3.2.1 h1 | exact hd3.2.2 h1
  · obtain ⟨d1, d2, d3, hds⟩ : ∃ a b c, ds = [a, b, c] := by
      cases ds with
      | nil => simp at hlen
      | cons a l1 =>
        cases l1 with
        | nil => simp at hlen
        | cons b l2 =>
          cases l2 with
          | nil => simp at hlen
          | cons c l3 =>
            cases l3 with
            | nil => exact ⟨a, b, c, rfl⟩
            | cons d l4 => simp at hlen
    subst hds
    have hd1 := digit_not_MAP (hall d1 (by simp))
    have hd2 := digit_not_MAP (hall d2 (by simp))
    have hd3 := digit_not_MAP (hall d3 (by simp))
    show allTailsSafe ('A' :: 'C' :: 'C' :: 'O' :: 'U' :: 'N' :: 'T' :: '_' ::
      d1 :: d2 :: [d3])
    simp only [allTailsSafe, noMarkFrom]
    refine ⟨by decide, by decide, by decide, by decide, by decide, by decide,
      ?_, ?_, ?_, hd3, trivial, trivial⟩ <;>
      rintro (⟨h1, -⟩ | ⟨h1, -⟩ | ⟨h1, -⟩) <;>
      first
      | exact absurd h1 (by decide)
      | exact hd1.1 h1 | exact hd1.2.1 h1 | exact hd1.2.2 h1
      | exact hd2.1 h1 | exact hd2.2.1 h1 | exact hd2.2.2 h1
  · obtain ⟨d1, d2, d3, hds⟩ : ∃ a b c, ds = [a, b, c] := by
      cases ds with
      | nil => simp at hlen
      | cons a l1 =>
        cases l1 with
        | nil => simp at hlen
        | cons b l2 =>
          cases l2 with
          | nil => simp at hlen
          | cons c l3 =>
            cases l3 with
            | nil => exact ⟨a, b, c, rfl⟩
            | cons d l4 => simp at hlen
    subst hds
    have hd1 := digit_not_MAP (hall d1 (by simp))
    have hd2 := digit_not_MAP (hall d2 (by simp))
    have hd3 := digit_not_MAP (hall d3 (by simp))
    show allTailsSafe ('P' :: 'E' :: 'R' :: 'S' :: 'O' :: 'N' :: '_' ::
      d1 :: d2 :: [d3])
    simp only [allTailsSafe, noMarkFrom]
    refine ⟨by decide, by decide, by decide, by decide, by decide,
      ?_, ?_, ?_, hd3, trivial, trivial⟩ <;>
      rintro (⟨h1, -⟩ | ⟨h1, -⟩ | ⟨h1, -⟩) <;>
      first
      | exact absurd h1 (by decide)
      | exact hd1.1 h1 | exact hd1.2.1 h1 | exact hd1.2.2 h1
      | exact hd2.1 h1 | exact hd2.2.1 h1 | exact hd2.2.2 h1

theorem allTailsSafe_noMark :
    ∀ (t : List Char), allTailsSafe t → ∀ (j : Nat), 1 ≤ j → j < t.length →
      ∀ (R : List Char) (x y : Char) (tl : List Char),
        t.drop j ++ R = x :: y :: tl →
        ((x = 'M' ∧ y = 'E') ∨ (x = 'A' ∧ y = 'C') ∨ (x = 'P' ∧ y = 'E')) → False := by
  intro t
  induction t with
  | nil => intro _ j _ hj2; simp at hj2
  | cons c rest ih =>
      intro hsafe j hj1 hj2 R x y tl heq hxy
      obtain ⟨hnm, hsafe2⟩ := hsafe
      cases j with
      | zero => omega
      | succ j2 =>
        cases j2 with
        | zero =>
            have hdrop : (c :: rest).drop 1 = rest := rfl
            rw [hdrop] at heq
            cases rest with
            | nil => simp at hj2
            | cons a rest2 =>
                cases rest2 with
                | nil =>
                    rw [show ([a] : List Char) ++ R = a :: R from rfl] at heq
                    simp only [List.cons.injEq] at heq
                    obtain ⟨hx, -⟩ := heq
                    subst hx
                    rcases hxy with ⟨h1, -⟩ | ⟨h1, -⟩ | ⟨h1, -⟩
                    · exact hnm.1 h1
                    · exact hnm.2.1 h1
                    · exact hnm.2.2 h1
                | cons b rest3 =>
                    rw [List.cons_append, List.cons_append] at heq
                    simp only [List.cons.injEq] at heq
                    obtain ⟨hx, hy, -⟩ := heq
                    subst hx
                    subst hy
                    exact hnm hxy
        | succ j3 =>
            have hdrop : (c :: rest).drop (j3 + 2) = rest.drop (j3 + 1) := rfl
            rw [hdrop] at heq
            exact ih hsafe2 (j3 + 1) (by omega) (by simp at hj2; omega) R x y tl heq hxy

/-- No position strictly inside a token-shaped string continues as a
two-character token mark. -/
theorem noTokHeadInside {t : List Char} (h : tokenShaped t) {j : Nat}
    (hj1 : 1 ≤ j) (hj2 : j < t.length) {R : List Char} {x y : Char} {tl : List Char}
    (heq : t.drop j ++ R = x :: y :: tl)
    (hxy : (x = 'M' ∧ y = 'E') ∨ (x = 'A' ∧ y = 'C') ∨ (x = 'P' ∧ y = 'E')) :
    False :=
  allTailsSafe_noMark t (allTailsSafe_token h) j hj1 hj2 R x y tl heq hxy

/-- Two prefix-comparable token-shaped strings are equal. -/
theorem tokPrefixEq {a b : List Char} (ha : tokenShaped a) (hb : tokenShaped b)
    (h : a <+: b) : a = b := by
  rcases ha with ⟨d1, hl1, -, h1⟩ | ⟨d1, hl1, -, h1⟩ | ⟨d1, hl1, -, h1⟩ <;>
    rcases hb with ⟨d2, hl2, -, h2⟩ | ⟨d2, hl2, -, h2⟩ | ⟨d2, hl2, -, h2⟩ <;>
    subst h1 <;> subst h2
  · exact h.eq_of_length (by simp [mercPre, hl1, hl2])
  · simp only [mercPre, accPre, List.cons_append] at h
    rw [List.cons_prefix_cons] at h
    exact absurd h.1 (by decide)
  · simp only [mercPre, persPre, List.cons_append] at h
    rw [List.cons_prefix_cons] at h
    exact absurd h.1 (by decide)
  · simp only [mercPre, accPre, List.cons_append] at h
    rw [List.cons_prefix_cons] at h
    exact absurd h.1 (by decide)
  · exact h.eq_of_length (by simp [accPre, hl1, hl2])
  · simp only [accPre, persPre, List.cons_append] at h
    rw [List.cons_prefix_cons] at h
    exact absurd h.1 (by decide)
  · simp only [mercPre, persPre, List.cons_append] at h
    rw [List.cons_prefix_cons] at h
    exact absurd h.1 (by decide)
  · simp only [accPre, persPre, List.cons_append] at h
    rw [List.cons_prefix_cons] at h
    exact absurd h.1 (by decide)
  · exact h.eq_of_length (by simp [persPre, hl1, hl2])

/-- A token never occurs at the start of a different rendered token. -/
theorem noFireTokNe {t tok R : List Char} (ht : tokenShaped t) (hk : tokenShaped tok)
    (hne : t ≠ tok) : ¬ tok <+: (t ++ R) := by
  intro h
  rcases prefixAppendSplit h with h2 | ⟨w2, hw2, -⟩
  · exact hne (tokPrefixEq hk ht h2).symm
  · exact hne (tokPrefixEq ht hk ⟨w2, hw2.symm⟩)

/-- A token never occurs starting strictly inside a rendered token. -/
theorem noFireInTok {t tok R : List Char} (ht : tokenShaped t) (hk : tokenShaped tok)
    {j : Nat} (hj1 : 1 ≤ j) (hj2 : j < t.length) : ¬ tok <+: (t.drop j ++ R) := by
  intro h
  obtain ⟨x, y, tl, hk2, hxy⟩ := tokHeadTwo hk
  obtain ⟨r, hr⟩ := h
  rw [hk2] at hr
  exact noTokHeadInside ht hj1 hj2 (R := R) (by rw [← hr]; rfl) hxy

/-- A token never occurs starting anywhere inside a spliced-in inert
original value, whatever follows it. -/
theorem noFireInOrig {o tok R : List Char} (ho : okOriginal o) (hk : tokenShaped tok)
    {j : Nat} (hj : j < o.length) : ¬ tok <+: (o.drop j ++ R) := by
  intro h
  obtain ⟨-, hchars, hsuffixes, -⟩ := ho
  rcases prefixAppendSplit h with h2 | ⟨w2, hw2, -⟩
  · obtain ⟨d, hd_mem, hd_dig⟩ :=
      suffix_digit hk (List.suffix_refl tok) (tokenShaped_ne_nil hk)
    have hdo : d ∈ o := List.drop_subset j o (h2.subset hd_mem)
    rw [(hchars d hdo).1] at hd_dig
    exact absurd hd_dig (by decide)
  · have hu_und : ∀ c ∈ o.drop j, c ≠ '_' :=
      fun c hc => (hchars c (List.drop_subset j o hc)).2
    rcases hk with ⟨ds, hlen, hall, htk⟩ | ⟨ds, hlen, hall, htk⟩ | ⟨ds, hlen, hall, htk⟩
    · have hp : o.drop j <+: lettersM ++ '_' :: ds := by
        rw [show lettersM ++ '_' :: ds = tok by rw [htk]; rfl]
        exact ⟨w2, hw2.symm⟩
      exact (hsuffixes j hj).1 (prefNoUnderscore hu_und hp)
    · have hp : o.drop j <+: lettersA ++ '_' :: ds := by
        rw [show lettersA ++ '_' :: ds = tok by rw [htk]; rfl]
        exact ⟨w2, hw2.symm⟩
      exact (hsuffixes j hj).2.1 (prefNoUnderscore hu_und hp)
    · have hp : o.drop j <+: lettersP ++ '_' :: ds := by
        rw [show lettersP ++ '_' :: ds = tok by rw [htk]; rfl]
        exact ⟨w2, hw2.symm⟩
      exact (hsuffixes j hj).2.2 (prefNoUnderscore hu_und hp)

/-- A scanner whose matcher fires nowhere inside `u` passes `u` through. -/
theorem passThrough (m : List Char → Option (List Char × List Char)) (repl : List Char) :
    ∀ (u R : List Char), (∀ j, j < u.length → m (u.drop j ++ R) = none) →
      subAllM m repl (u ++ R) = u ++ subAllM m repl R := by
  intro u
  induction u with
  | nil => intro R _; rfl
  | cons c u2 ih =>
      intro R h
      have h0 : m (c :: (u2 ++ R)) = none := h 0 (by simp)
      rw [List.cons_append, subAllM_none h0,
        ih R (fun j hj => h (j + 1) (by simp only [List.length_cons]; omega))]
      exact (List.cons_append c u2 _).symm

/-- Token-shaped prefixes transfer from a partially substituted rendering
back to the original text (inert originals can neither contain nor help
form a token occurrence). -/
theorem transferPref (st : TokState) (P : List (List Char))
    (hInert : ∀ p ∈ st.reverseCache, okOriginal p.2) :
    ∀ S, wfSegs S → ∀ tk w, tokenShaped tk → w <:+ tk →
      w <+: rendAll st P S → w <+: renderId S := by
  intro S
  induction S with
  | nil =>
      intro _ tk w _ _ hw
      exact hw
  | cons sg S2 ih =>
      intro hwf tk w htk hsuf hpre
      cases sg with
      | lit c =>
          cases w with
          | nil => exact List.nil_prefix
          | cons x w2 =>
              have hpre2 : x :: w2 <+: c :: rendAll st P S2 := hpre
              rw [List.cons_prefix_cons] at hpre2
              obtain ⟨hx, hp2⟩ := hpre2
              subst hx
              have hsuf2 : w2 <:+ tk := by
                obtain ⟨s, hs⟩ := hsuf
                exact ⟨s ++ [x], by rw [List.append_assoc]; exact hs⟩
              have h2 := ih hwf.2 tk w2 htk hsuf2 hp2
              show x :: w2 <+: x :: renderId S2
              exact List.cons_prefix_cons.mpr ⟨rfl, h2⟩
      | tok t =>
          obtain ⟨htok, hwf2⟩ := hwf
          have hcase : rendAll st P (Seg.tok t :: S2) = t ++ rendAll st P S2 ∨
              ∃ o, alookup st.reverseCache t = some o ∧ okOriginal o ∧
                rendAll st P (Seg.tok t :: S2) = o ++ rendAll st P S2 := by
            by_cases hP : t ∈ P
            · cases halo : alookup st.reverseCache t with
              | some o =>
                  refine Or.inr ⟨o, rfl, hInert (t, o) (alookup_some _ t o halo), ?_⟩
                  show (if t ∈ P then _ else t) ++ _ = _
                  rw [if_pos hP, halo]
              | none =>
                  refine Or.inl ?_
                  show (if t ∈ P then _ else t) ++ _ = _
                  rw [if_pos hP, halo]
            · refine Or.inl ?_
              show (if t ∈ P then _ else t) ++ _ = _
              rw [if_neg hP]
          rcases hcase with hE | ⟨o, halo, hok, hE⟩
          · rw [hE] at hpre
            rcases prefixAppendSplit hpre with hwo | ⟨w2, hw2, hp2⟩
            · exact hwo.trans (List.prefix_append t (renderId S2))
            · subst hw2
              have hsuf2 : w2 <:+ tk := by
                obtain ⟨s, hs⟩ := hsuf
                exact ⟨s ++ t, by rw [List.append_assoc]; exact hs⟩
              have h2 := ih hwf2 tk w2 htk hsuf2 hp2
              show t ++ w2 <+: t ++ renderId S2
              exact (List.prefix_append_right_inj t).mpr h2
          · by_cases hwn : w = []
            · subst hwn
              exact List.nil_prefix
            · exfalso
              rw [hE] at hpre
              obtain ⟨d, hdw, hdig⟩ := suffix_digit htk hsuf hwn
              rcases prefixAppendSplit hpre with hwo | ⟨w2, hw2, -⟩
              · have hdo : d ∈ o := hwo.subset hdw
                rw [(hok.2.1 d hdo).1] at hdig
                exact absurd hdig (by decide)
              · have hinf : o <:+: tk :=
                  List.infix_iff_prefix_suffix.mpr ⟨w, ⟨w2, hw2.symm⟩, hsuf⟩
                rcases htk with ⟨ds, -, hall, htk2⟩ | ⟨ds, -, hall, htk2⟩ |
                  ⟨ds, -, hall, htk2⟩
                · rw [htk2, show mercPre ++ ds = lettersM ++ '_' :: ds from rfl] at hinf
                  exact hok.2.2.2.1 (infixNoUnderscore hok.1 hok.2.1 hall hinf)
                · rw [htk2, show accPre ++ ds = lettersA ++ '_' :: ds from rfl] at hinf
                  exact hok.2.2.2.2.1 (infixNoUnderscore hok.1 hok.2.1 hall hinf)
                · rw [htk2, show persPre ++ ds = lettersP ++ '_' :: ds from rfl] at hinf
                  exact hok.2.2.2.2.2 (infixNoUnderscore hok.1 hok.2.1 hall hinf)

/-- One `str.replace` pass over a partially substituted rendering
substitutes exactly the segments carrying the replaced token. -/
theorem repSeg (st : TokState) (hInert : ∀ p ∈ st.reverseCache, okOriginal p.2)
    {tok o2 : List Char} (halo : alookup st.reverseCache tok = some o2)
    (hktok : tokenShaped tok) (P : List (List Char)) :
    ∀ S, wfSegs S → subAllM (replOf tok) o2 (rendAll st P S) = rendAll st (tok :: P) S := by
  intro S
  induction S with
  | nil => intro _; rfl
  | cons sg S2 ih =>
      intro hwf
      cases sg with
      | lit c =>
          obtain ⟨hnone, hwf2⟩ := hwf
          have hnofire : replOf tok (c :: rendAll st P S2) = none := by
            apply replOf_eq_none
            intro hpref
            have h2 : tok <+: renderId (Seg.lit c :: S2) :=
              transferPref st P hInert (Seg.lit c :: S2) ⟨hnone, hwf2⟩ tok tok hktok
                (List.suffix_refl tok) hpref
            have h2b : tok <+: c :: renderId S2 := h2
            obtain ⟨r, hr⟩ := h2b
            have hfire := tokenShaped_matchTokenAt hktok r
            rw [hr] at hfire
            rw [hnone] at hfire
            exact absurd hfire (by simp)
          show subAllM (replOf tok) o2 (c :: rendAll st P S2) =
            c :: rendAll st (tok :: P) S2
          rw [subAllM_none hnofire, ih hwf2]
      | tok t =>
          obtain ⟨htokS, hwf2⟩ := hwf
          by_cases hEq : t = tok ∧ t ∉ P
          · obtain ⟨rfl, hnP⟩ := hEq
            have hE : rendAll st P (Seg.tok t :: S2) = t ++ rendAll st P S2 := by
              show (if t ∈ P then _ else t) ++ _ = _
              rw [if_neg hnP]
            obtain ⟨x, tk2, hx⟩ : ∃ x tk2, t = x :: tk2 := by
              cases hc : t with
              | nil => exact absurd hc (tokenShaped_ne_nil hktok)
              | cons x tk2 => exact ⟨x, tk2, rfl⟩
            have hm : replOf t (x :: (tk2 ++ rendAll st P S2)) =
                some (t, rendAll st P S2) := by
              rw [show x :: (tk2 ++ rendAll st P S2) = t ++ rendAll st P S2 by
                rw [hx]; rfl]
              exact replOf_self t _
            have hlt : (rendAll st P S2).length < (tk2 ++ rendAll st P S2).length + 1 := by
              simp only [List.length_append]
              omega
            have hstep := @subAllM_some (replOf t) o2 x (tk2 ++ rendAll st P S2) t
              (rendAll st P S2) hm hlt
            have hR : rendAll st (t :: P) (Seg.tok t :: S2) =
                o2 ++ rendAll st (t :: P) S2 := by
              show (if t ∈ t :: P then _ else t) ++ _ = _
              rw [if_pos (List.mem_cons_self t P), halo]
            rw [hE, hR]
            rw [show t ++ rendAll st P S2 = x :: (tk2 ++ rendAll st P S2) by
              rw [hx]; rfl]
            rw [hstep, ih hwf2]
          · have hcase : ∃ E, rendAll st P (Seg.tok t :: S2) = E ++ rendAll st P S2 ∧
                rendAll st (tok :: P) (Seg.tok t :: S2) =
                  E ++ rendAll st (tok :: P) S2 ∧
                (∀ R j, j < E.length → ¬ tok <+: (E.drop j ++ R)) := by
              by_cases hP : t ∈ P
              · cases halo2 : alookup st.reverseCache t with
                | some ot =>
                    refine ⟨ot, ?_, ?_, ?_⟩
                    · show (if t ∈ P then _ else t) ++ _ = _
                      rw [if_pos hP, halo2]
                    · show (if t ∈ tok :: P then _ else t) ++ _ = _
                      rw [if_pos (List.mem_cons_of_mem tok hP), halo2]
                    · intro R j hj
                      exact noFireInOrig (hInert (t, ot) (alookup_some _ t ot halo2))
                        hktok hj
                | none =>
                    have hne : t ≠ tok := by
                      intro hteq
                      rw [hteq] at halo2
                      rw [halo] at halo2
                      exact absurd halo2 (by simp)
                    refine ⟨t, ?_, ?_, ?_⟩
                    · show (if t ∈ P then _ else t) ++ _ = _
                      rw [if_pos hP, halo2]
                    · show (if t ∈ tok :: P then _ else t) ++ _ = _
                      rw [if_pos (List.mem_cons_of_mem tok hP), halo2]
                    · intro R j hj
                      cases Nat.eq_zero_or_pos j with
                      | inl h0 =>
                          subst h0
                          rw [List.drop_zero]
                          exact noFireTokNe htokS hktok hne
                      | inr hpos => exact noFireInTok htokS hktok hpos hj
              · have hne : t ≠ tok := fun hteq => hEq ⟨hteq, hP⟩
                have hnmem : t ∉ tok :: P := by
                  intro hm
                  rcases List.mem_cons.mp hm with h | h
                  · exact hne h
                  · exact hP h
                refine ⟨t, ?_, ?_, ?_⟩
                · show (if t ∈ P then _ else t) ++ _ = _
                  rw [if_neg hP]
                · show (if t ∈ tok :: P then _ else t) ++ _ = _
                  rw [if_neg hnmem]
                · intro R j hj
                  cases Nat.eq_zero_or_pos j with
                  | inl h0 =>
                      subst h0
                      rw [List.drop_zero]
                      exact noFireTokNe htokS hktok hne
                  | inr hpos => exact noFireInTok htokS hktok hpos hj
            obtain ⟨E, hE1, hE2, hnof⟩ := hcase
            rw [hE1, hE2]
            rw [passThrough (replOf tok) o2 E (rendAll st P S2)
              (fun j hj => replOf_eq_none (hnof _ j hj))]
            rw [ih hwf2]

theorem rendAllCong (st : TokState) {P1 P2 : List (List Char)}
    (h : ∀ x, x ∈ P1 ↔ x ∈ P2) : ∀ S, rendAll st P1 S = rendAll st P2 S := by
  intro S
  induction S with
  | nil => rfl
  | cons sg S2 ih =>
      cases sg with
      | lit c =>
          show c :: _ = c :: _
          rw [ih]
      | tok t =>
          show (if t ∈ P1 then _ else t) ++ _ = (if t ∈ P2 then _ else t) ++ _
          rw [ih, if_congr (h t) rfl rfl]

theorem rendAll_nil_eq (st : TokState) : ∀ S, rendAll st [] S = renderId S := by
  intro S
  induction S with
  | nil => rfl
  | cons sg S2 ih =>
      cases sg with
      | lit c =>
          show c :: _ = c :: _
          rw [ih]
      | tok t =>
          show (if t ∈ ([] : List (List Char)) then _ else t) ++ _ = t ++ _
          rw [ih, if_neg (List.not_mem_nil t)]

theorem rendAll_full (st : TokState) (P : List (List Char)) :
    ∀ S, (∀ t, Seg.tok t ∈ S → (∃ o, alookup st.reverseCache t = some o) → t ∈ P) →
      rendAll st P S = renderFull st S := by
  intro S
  induction S with
  | nil => intro _; rfl
  | cons sg S2 ih =>
      intro h
      cases sg with
      | lit c =>
          show c :: _ = c :: _
          rw [ih (fun t ht hex => h t (List.mem_cons_of_mem _ ht) hex)]
      | tok t =>
          have ih2 := ih (fun t2 ht hex => h t2 (List.mem_cons_of_mem _ ht) hex)
          cases halo : alookup st.reverseCache t with
          | some o =>
              have hP : t ∈ P := h t (List.mem_cons_self _ _) ⟨o, halo⟩
              show (if t ∈ P then _ else t) ++ _ = _ ++ _
              rw [if_pos hP, halo, ih2]
          | none =>
              by_cases hP : t ∈ P
              · show (if t ∈ P then _ else t) ++ _ = _ ++ _
                rw [if_pos hP, halo, ih2]
              · show (if t ∈ P then _ else t) ++ _ = _ ++ _
                rw [if_neg hP, halo, ih2]

theorem segTokens_shaped : ∀ S, wfSegs S → ∀ t ∈ segTokens S, tokenShaped t := by
  intro S
  induction S with
  | nil => intro _ t ht; exact absurd ht (List.not_mem_nil t)
  | cons sg S2 ih =>
      intro hwf t ht
      cases sg with
      | lit c => exact ih hwf.2 t ht
      | tok t2 =>
          rcases List.mem_cons.mp ht with h | h
          · subst h; exact hwf.1
          · exact ih hwf.2 t h

theorem segTokens_of_mem : ∀ (S : List Seg) (t : List Char),
    Seg.tok t ∈ S → t ∈ segTokens S := by
  intro S
  induction S with
  | nil => intro t ht; exact absurd ht (List.not_mem_nil _)
  | cons sg S2 ih =>
      intro t ht
      rcases List.mem_cons.mp ht with h | h
      · rw [← h]
        exact List.mem_cons_self t (segTokens S2)
      · cases sg with
        | lit c => exact ih t h
        | tok t2 => exact List.mem_cons_of_mem t2 (ih t h)

/-- The fold of `detokenize` over found tokens, on a partially
substituted rendering. -/
theorem foldInv (st : TokState) (hInert : ∀ p ∈ st.reverseCache, okOriginal p.2)
    (S : List Seg) (hwf : wfSegs S) :
    ∀ (toksL : List (List Char)), (∀ tk ∈ toksL, tokenShaped tk) →
      ∀ P, List.foldl
        (fun result tk =>
          match alookup st.reverseCache tk with
          | some orig => replaceAll result tk orig
          | none => result)
        (rendAll st P S) toksL =
      rendAll st ((toksL.filter (fun tk => (alookup st.reverseCache tk).isSome)) ++ P) S := by
  intro toksL
  induction toksL with
  | nil => intro _ P; rfl
  | cons tk rest ih =>
      intro hshapes P
      rw [List.foldl_cons]
      cases halo : alookup st.reverseCache tk with
      | some orig =>
          have hstep : replaceAll (rendAll st P S) tk orig = rendAll st (tk :: P) S :=
            repSeg st hInert halo (hshapes tk (List.mem_cons_self tk rest)) P S hwf
          show List.foldl _ (replaceAll (rendAll st P S) tk orig) rest = _
          rw [hstep, ih (fun x hx => hshapes x (List.mem_cons_of_mem tk hx)) (tk :: P)]
          have hfil : List.filter (fun tk2 => (alookup st.reverseCache tk2).isSome)
              (tk :: rest) = tk :: List.filter
                (fun tk2 => (alookup st.reverseCache tk2).isSome) rest := by
            simp [List.filter_cons, halo]
          rw [hfil]
          apply rendAllCong
          intro x
          simp only [List.mem_append, List.mem_cons]
          tauto
      | none =>
          have hfil : List.filter (fun tk2 => (alookup st.reverseCache tk2).isSome)
              (tk :: rest) = List.filter
                (fun tk2 => (alookup st.reverseCache tk2).isSome) rest := by
            simp [List.filter_cons, halo]
          show List.foldl _ (rendAll st P S) rest = _
          rw [ih (fun x hx => hshapes x (List.mem_cons_of_mem tk hx)) P, hfil]

/-- **C2** (amended): `detokenize` finds the non-overlapping token-pattern
matches of the text left to right; provided every cached original value
is inert (nonempty, free of digits and underscores, and sharing no
fragment with the token prefix words), every found token that was issued
is replaced by its stored original value, never-issued token-shaped
strings are left untouched without error, all non-token text is
unchanged, and text whose scan finds no token is returned as is. Without
the inertness proviso the sequential global replacements can cascade
through already substituted originals. -/
theorem detokenize_spec :
    (∀ (st : TokState) (text : List Char),
      (∀ p ∈ st.reverseCache, okOriginal p.2) →
      detokenizeL st text = renderFull st (scanSegs text)) ∧
    (∀ (st : TokState) (text : List Char), findTokens text = [] →
      detokenizeL st text = text) := by
  constructor
  · intro st text hInert
    obtain ⟨hrender, hwf, htoks⟩ := scanSegs_props text
    unfold detokenizeL
    rw [htoks]
    have hmain := foldInv st hInert (scanSegs text) hwf (segTokens (scanSegs text))
      (fun tk htk => segTokens_shaped (scanSegs text) hwf tk htk) []
    rw [rendAll_nil_eq, hrender] at hmain
    rw [hmain]
    apply rendAll_full
    intro t htS hex
    obtain ⟨o, halo⟩ := hex
    refine List.mem_append.mpr (Or.inl ?_)
    rw [List.mem_filter]
    refine ⟨segTokens_of_mem (scanSegs text) t htS, ?_⟩
    rw [halo]
    rfl
  · intro st text h
    unfold detokenizeL
    rw [h]
    rfl

/-- Counterexample to C2 as stated: with the reachable store mapping
`PERSON_001 ↦ ALICE` and `MERCHANT_0001 ↦ PERSON_001 Cafe` (a merchant
whose stored original value itself contains token-shaped text), the
sequential global replacements cascade: the code returns
`ALICE Cafe and ALICE`, while replacing each token substring of the
input with its stored original gives `PERSON_001 Cafe and ALICE`. -/
theorem detokenize_cascade :
    detokenizeL
        ((tokenizeMerchant (tokenizePerson emptyState "ALICE".data).2
          "PERSON_001 Cafe".data).2)
        "MERCHANT_0001 and PERSON_001".data =
      "ALICE Cafe and ALICE".data ∧
    renderFull
        ((tokenizeMerchant (tokenizePerson emptyState "ALICE".data).2
          "PERSON_001 Cafe".data).2)
        (scanSegs "MERCHANT_0001 and PERSON_001".data) =
      "PERSON_001 Cafe and ALICE".data ∧
    ("ALICE Cafe and ALICE".data : List Char) ≠ "PERSON_001 Cafe and ALICE".data := by
  refine ⟨by decide, by decide, by decide⟩

/-- Witness for C2 at a reachable store with two inert originals. -/
theorem detokenize_spec_witness :
    detokenizeL
        ((tokenizeMerchant (tokenizePerson emptyState "JOHN SMITH".data).2
          "Whole Foods".data).2)
        "Pay MERCHANT_0001 via PERSON_001 ok".data =
      renderFull
        ((tokenizeMerchant (tokenizePerson emptyState "JOHN SMITH".data).2
          "Whole Foods".data).2)
        (scanSegs "Pay MERCHANT_0001 via PERSON_001 ok".data) :=
  detokenize_spec.1 _ _ (by decide)

end Spendah
